import Mathlib

/-!
Verification of the servirtium demo-rust-climate-tck record/playback core.

The definitions below are a shallow embedding of `src/servirtium_server.rs`:

* `PlaybackData` embeds the struct of the same name.
* `handle_playback` embeds the pure response construction performed by
  `ServirtiumServer::handle_playback` (the bytes written to the socket).
* `headerScan` / `parse_headers` embed `HEADER_REGEX` (`(?m)(?P<header_key>
  [a-zA-Z\-]+): (?P<header_value>.*?)$`) together with `captures_iter` and
  `ServirtiumServer::parse_headers`.
* `markdownCaptures` / `decodePlayback` / `load_playback_file` embed
  `MARKDOWN_REGEX` and `ServirtiumServer::load_playback_file`.  The regex
  engine of the `regex` crate has leftmost-first (preference order)
  semantics, which the continuation-passing matchers below implement
  literally: alternatives are tried in preference order and the first
  success wins.
* `prepare_for_test` embeds `ServirtiumServer::prepare_for_test`, with the
  filesystem modelled as a function from paths to optional contents.
-/

set_option autoImplicit false
set_option maxRecDepth 100000

deriving instance DecidableEq for Except

universe u

/-- Embeds the Rust struct `PlaybackData`. -/
structure PlaybackData where
  uri : String
  headers : List (String × String)
  response_body : String
deriving DecidableEq, Repr

/-- Embeds the Rust enum `ServirtiumServerError` (payloads of the
`IoError` variant are dropped: an `io::Error` value itself plays no role in
any claim). -/
inductive ServirtiumServerError where
  | invalidMarkdownFormat
  | ioError
  | poisonedLock
deriving DecidableEq, Repr

/-- Embeds the Rust enum `ServirtiumMode` (the public mode selector). -/
inductive ServirtiumMode where
  | playback
  | record
deriving DecidableEq, Repr

/-- Embeds the Rust enum `ServirtiumInteractionMode`. -/
inductive ServirtiumInteractionMode where
  | playback (data : PlaybackData)
  | recording (path : String)
  | notSet
deriving DecidableEq, Repr

/-- Embeds the mutable fields of the Rust struct `ServirtiumServer`. -/
structure ServirtiumServer where
  interaction_mode : ServirtiumInteractionMode
  domain_name : Option String
deriving DecidableEq, Repr

/-- The filter closure in `handle_playback`:
`.filter(|(key, value)| key != "Transfer-Encoding" || value != "chunked")`. -/
def chunked_filter (headers : List (String × String)) : List (String × String) :=
  headers.filter (fun kv => kv.1 != "Transfer-Encoding" || kv.2 != "chunked")

/-- The map closure in `handle_playback`:
`.map(|(key, value)| format!("{}: {}\r\n", key, value))`. -/
def format_header (kv : String × String) : String :=
  kv.1 ++ ": " ++ kv.2 ++ "\r\n"

/-- Embeds the response construction of `ServirtiumServer::handle_playback`:
the exact byte sequence written to the stream. -/
def handle_playback (playback_data : PlaybackData) : String :=
  if playback_data.headers.isEmpty then
    "HTTP/1.1 200 OK\r\n\r\n" ++ playback_data.response_body
  else
    let headers := String.join ((chunked_filter playback_data.headers).map format_header)
    "HTTP/1.1 200 OK\r\n" ++ headers ++ "\r\n" ++ playback_data.response_body

/-- What a connection handler does with an accepted connection: either it
writes a byte sequence and returns, or it halts the thread (a Rust panic,
as produced by the `todo!()` macro). -/
inductive ConnectionOutcome where
  | wrote (bytes : String)
  | panicked
deriving DecidableEq, Repr

/-- Embeds `ServirtiumServer::handle_record`, whose whole body is
`todo!()`: it panics on every invocation. -/
def handle_record (_record_path : String) : ConnectionOutcome :=
  ConnectionOutcome.panicked

/-- Embeds the dispatch in the accept loop of `ServirtiumServer::start`:
`NotSet` produces no outcome for the connection. -/
def dispatch_connection (mode : ServirtiumInteractionMode) : Option ConnectionOutcome :=
  match mode with
  | .playback data => some (.wrote (handle_playback data))
  | .recording path => some (handle_record path)
  | .notSet => none

/-- Reference rendering of the emitted header section, written as a single
recursion over the header list; the theorem for C1 relates
`handle_playback` to it. -/
def renderHeaders : List (String × String) → String
  | [] => ""
  | (k, v) :: t =>
    if k = "Transfer-Encoding" ∧ v = "chunked" then renderHeaders t
    else k ++ ": " ++ v ++ "\r\n" ++ renderHeaders t

/-- Regex character class `\s`, used by the `\s*` atoms of
`MARKDOWN_REGEX` (on the ASCII fixture alphabet it coincides with
`Char.isWhitespace`). -/
def isWs (c : Char) : Bool :=
  c.isWhitespace

/-- Regex character class `[a-zA-Z\-]` of `HEADER_REGEX`. -/
def isKeyChar (c : Char) : Bool :=
  c.isAlpha || c == '-'

/-- Rust `str::trim` on the character list of an ASCII string. -/
def rustTrim (l : List Char) : List Char :=
  ((l.dropWhile isWs).reverse.dropWhile isWs).reverse

/-- Embeds `HEADER_REGEX.captures_iter`.  The regex is
`(?m)(?P<header_key>[a-zA-Z\-]+): (?P<header_value>.*?)$`: with `(?m)` the
`$` matches before a newline or at the end, and `.` does not match a
newline, so every match lies inside one line and ends at that line's end.
Leftmost-first scanning tries each start position in order; a match can
only start at the beginning of a maximal run of key characters followed by
`": "` (an inner position of a run sees the same run end, so it succeeds
only if the run start does, and the run start is further left). -/
def headerScan : List Char → List (List Char × List Char)
  | [] => []
  | c :: t =>
    if isKeyChar c then
      match t.dropWhile isKeyChar with
      | ':' :: ' ' :: r2 =>
        let v := r2.takeWhile (fun d => d != '\n')
        (c :: t.takeWhile isKeyChar, v) ::
          headerScan ((t.dropWhile isKeyChar).drop (2 + v.length))
      | _ => headerScan (t.dropWhile isKeyChar)
    else headerScan t
termination_by s => s.length
decreasing_by
  · have h1 : (t.dropWhile isKeyChar).length ≤ t.length :=
      (List.dropWhile_sublist _).length_le
    simp only [List.length_cons, List.length_drop] at *
    omega
  · have h1 : (t.dropWhile isKeyChar).length ≤ t.length :=
      (List.dropWhile_sublist _).length_le
    simp only [List.length_cons]
    omega
  · simp only [List.length_cons]
    omega

/-- Embeds `ServirtiumServer::parse_headers`: every capture of
`HEADER_REGEX` contributes `(key.trim(), value.trim())`, in match order. -/
def parse_headers (headers_part : String) : List (String × String) :=
  (headerScan headers_part.data).map
    (fun kv => (String.mk (rustTrim kv.1), String.mk (rustTrim kv.2)))

/-- Preference-order alternation: the first alternative wins if it
succeeds, otherwise the engine backtracks into the second. -/
def tryFirst {α : Type u} (a b : Option α) : Option α :=
  match a with
  | some r => some r
  | none => b

/-- `.*?lit` of the `regex` crate under `(?s)`, in continuation-passing
style: the lazy dot-star tries the shortest consumption first, so the
continuation `k` is first called at the earliest occurrence of `lit`, and
on failure the scan backtracks to later occurrences. -/
def lazyUntil {α : Type u} (lit : List Char) (k : List Char → Option α) :
    List Char → Option α
  | [] => if lit.isPrefixOf ([] : List Char) then k (List.drop lit.length []) else none
  | c :: t =>
    tryFirst (if lit.isPrefixOf (c :: t) then k ((c :: t).drop lit.length) else none)
      (lazyUntil lit k t)

/-- A greedy character-class star (`[^/]*`, `\s*`) in continuation-passing
style: the longest run is tried first and shorter runs on backtracking. -/
def greedyStar {α : Type u} (p : Char → Bool) (k : List Char → Option α) :
    List Char → Option α
  | [] => k []
  | c :: t =>
    if p c then tryFirst (greedyStar p k t) (k (c :: t))
    else k (c :: t)

/-- A capturing `(.*lit)` under `(?s)` (the `(?P<uri>.*\.xml)` group):
greedy, so the longest dot consumption is tried first; the continuation
receives the captured text (dots plus `lit`) and the rest. -/
def greedyDotLit {α : Type u} (lit : List Char) (k : List Char → List Char → Option α) :
    List Char → Option α
  | [] => if lit.isPrefixOf ([] : List Char) then k lit (List.drop lit.length []) else none
  | c :: t =>
    tryFirst (greedyDotLit lit (fun cap rem => k (c :: cap) rem) t)
      (if lit.isPrefixOf (c :: t) then k lit ((c :: t).drop lit.length) else none)

/-- A capturing `(.*?)\s*lit` under `(?s)` (the `headers_part` and
`body_part` groups with their trailing `\s*` and closing fence): the lazy
group tries the shortest capture first; after it, the greedy `\s*` and the
literal must match. -/
def lazyCapThen {α : Type u} (lit : List Char) (k : List Char → List Char → Option α) :
    List Char → Option α
  | [] =>
    greedyStar isWs
      (fun s2 => if lit.isPrefixOf s2 then k [] (s2.drop lit.length) else none) []
  | c :: t =>
    tryFirst
      (greedyStar isWs
        (fun s2 => if lit.isPrefixOf s2 then k [] (s2.drop lit.length) else none)
        (c :: t))
      (lazyCapThen lit (fun cap rem => k (c :: cap) rem) t)

/-- The literal `### Response headers recorded for playback` of
`MARKDOWN_REGEX`. -/
def anchorHeaders : List Char :=
  "### Response headers recorded for playback".data

/-- The literal `### Response body recorded for playback` of
`MARKDOWN_REGEX`. -/
def anchorBody : List Char :=
  "### Response body recorded for playback".data

/-- The code-fence literal of `MARKDOWN_REGEX`. -/
def fenceLit : List Char :=
  "```".data

/-- Embeds `MARKDOWN_REGEX.captures(text)`, the regex
`(?ms)\#\# [^/]*(?P<uri>.*\.xml).*?\#\#\# Response headers recorded for
playback.*?BT\s*(?P<headers_part>.*?)\s*BT.*?\#\#\# Response body recorded
for playback.*?BT\s*(?P<body_part>.*?)\s*BT.*?` (with `BT` the
triple-backtick fence), composed from the continuation-passing atoms above
in the exact order and preference of the pattern.  The leading `lazyUntil`
realises the leftmost-match search of `Regex::captures`; the trailing
`.*?` of the pattern matches the empty string first, so it imposes
nothing. -/
def markdownCaptures (text : List Char) : Option (List Char × List Char × List Char) :=
  lazyUntil "## ".data
    (greedyStar (fun c => c != '/')
      (greedyDotLit ".xml".data (fun uri =>
        lazyUntil anchorHeaders
          (lazyUntil fenceLit
            (greedyStar isWs
              (lazyCapThen fenceLit (fun headers_part =>
                lazyUntil anchorBody
                  (lazyUntil fenceLit
                    (greedyStar isWs
                      (lazyCapThen fenceLit (fun body_part _ =>
                        some (uri, headers_part, body_part))))))))))))
    text

/-- Embeds the text-processing part of
`ServirtiumServer::load_playback_file`: a failed regex capture surfaces
`InvalidMarkdownFormat`; a successful one builds the `PlaybackData` from
the three named capture groups (no trimming beyond what the regex itself
does). -/
def decodePlayback (text : String) : Except ServirtiumServerError PlaybackData :=
  match markdownCaptures text.data with
  | none => .error .invalidMarkdownFormat
  | some (uri, headers_part, body_part) =>
    .ok { uri := String.mk uri
          headers := parse_headers (String.mk headers_part)
          response_body := String.mk body_part }

/-- Embeds `ServirtiumServer::load_playback_file` with the filesystem
modelled as a map from path to optional contents (`none` is a failing
`fs::read_to_string`, surfaced as `IoError` by the `?` operator). -/
def load_playback_file (fs : String → Option String) (filename : String) :
    Except ServirtiumServerError PlaybackData :=
  match fs filename with
  | none => .error .ioError
  | some text => decodePlayback text

/-- Embeds `ServirtiumServer::prepare_for_test` (the mutation of the
singleton under the instance lock): `domain_name` is assigned first; the
`Playback` arm then loads the fixture, and the `?` operator returns early
on failure, leaving `interaction_mode` untouched.  The returned pair is
the server state after the call and the error if any. -/
def prepare_for_test (fs : String → Option String) (server : ServirtiumServer)
    (mode : ServirtiumMode) (script_path : String) (domain_name : String) :
    ServirtiumServer × Option ServirtiumServerError :=
  let server1 := { server with domain_name := some domain_name }
  match mode with
  | .playback =>
    match load_playback_file fs script_path with
    | .ok playback_data =>
      ({ server1 with interaction_mode := .playback playback_data }, none)
    | .error e => (server1, some e)
  | .record =>
    ({ server1 with interaction_mode := .recording script_path }, none)

/-- Bool-valued substring occurrence test, used to state the missing-anchor
claim. -/
def occurs (pat : List Char) : List Char → Bool
  | [] => pat.isPrefixOf ([] : List Char)
  | c :: t => pat.isPrefixOf (c :: t) || occurs pat t

/-- Leftmost occurrence search: `dropAfter lit s` returns the remainder of
`s` after the end of the leftmost occurrence of `lit`, or `none` when
`lit` does not occur in `s`. -/
def dropAfter (lit : List Char) : List Char → Option (List Char)
  | [] => if lit.isPrefixOf ([] : List Char) then some (List.drop lit.length []) else none
  | c :: t =>
    if lit.isPrefixOf (c :: t) then some (List.drop lit.length (c :: t))
    else dropAfter lit t

/-- Executable test that the literals of `lits` occur in `s` in the given
relative order and without overlap, by repeated leftmost search. -/
def seqOccurs : List (List Char) → List Char → Bool
  | [], _ => true
  | lit :: lits, s =>
    match dropAfter lit s with
    | none => false
    | some rest => seqOccurs lits rest

/-- The literals of `lits` occur in `s` in the given relative order and
without overlap: `s` splits into segments carrying each literal in turn. -/
def chainSplit : List (List Char) → List Char → Prop
  | [], _ => True
  | lit :: lits, s => ∃ a b, s = a ++ lit ++ b ∧ chainSplit lits b

/-- The anchor-literal chain of `MARKDOWN_REGEX` in matching order: the
heading marker, the `.xml` uri token, the response-headers sub-heading
followed by its fenced block (two code fences), and the response-body
sub-heading followed by its fenced block. -/
def anchorChain : List (List Char) :=
  ["## ".data, ".xml".data, anchorHeaders, fenceLit, fenceLit,
    anchorBody, fenceLit, fenceLit]

/-- Splitting a character list at newlines (every string splits into at
least one line; a trailing newline yields a final empty line), mirroring
how `(?m)` line anchors partition the haystack. -/
def splitLines : List Char → List (List Char)
  | [] => [[]]
  | c :: t =>
    if c = '\n' then [] :: splitLines t
    else
      match splitLines t with
      | [] => [[c]]
      | l :: ls => (c :: l) :: ls

/-- The specified per-line header extraction, following the spec text: a
line is scanned for its first maximal run of ASCII letters/hyphens that is
followed by `": "`; the pair is that run and the remainder of the line.
Lines with no such run yield nothing. -/
def specLineHeader : List Char → Option (List Char × List Char)
  | [] => none
  | c :: t =>
    if isKeyChar c then
      match t.dropWhile isKeyChar with
      | ':' :: ' ' :: v => some (c :: t.takeWhile isKeyChar, v)
      | _ => specLineHeader (t.dropWhile isKeyChar)
    else specLineHeader t
termination_by s => s.length
decreasing_by
  · have h1 : (t.dropWhile isKeyChar).length ≤ t.length :=
      (List.dropWhile_sublist _).length_le
    simp only [List.length_cons]
    omega
  · simp only [List.length_cons]
    omega

/-- Modelled from the spec: the repository implements no `encode` (the
Recording branch that would use it is `todo!()`); §4.1 of the spec requires
`encode(FixtureRecord) -> text` to produce the fixture format whose output
`decode` re-parses.  This definition renders the header block lines. -/
def encodeHeaderLines (headers : List (String × String)) : String :=
  String.join (headers.map (fun kv => kv.1 ++ ": " ++ kv.2 ++ "\n"))

/-- Modelled from the spec: `encode(FixtureRecord) -> text` following the
format block of §4.1 — a `## ` heading carrying the request URI, the
response-headers sub-heading with a fenced block of `Name: value` lines,
and the response-body sub-heading with a fenced block holding the body. -/
def encode (record : PlaybackData) : String :=
  "## " ++ record.uri ++
    "\n\n### Response headers recorded for playback\n\n```\n" ++
    encodeHeaderLines record.headers ++
    "```\n\n### Response body recorded for playback\n\n```\n" ++
    record.response_body ++ "\n```\n"

/-- The well-formed fixture document named by the spec: URI
`pr/1980/1999/gbr.xml`, headers `Content-Type: text/xml` and `Date: <x>`,
body `<root/>`. -/
def specDoc : String :=
  "## GET /pr/1980/1999/gbr.xml\n\n### Response headers recorded for playback\n\n```\n" ++
    "Content-Type: text/xml\nDate: <x>\n```\n\n" ++
    "### Response body recorded for playback\n\n```\n<root/>\n```\n"

/-- A well-formed fixture document whose heading line is `## /a.xml` and
whose next line is `b.xml`: under the `(?s)` flag the greedy `.*\.xml` of
the uri group runs across the newline to the last reachable `.xml`. -/
def multilineUriDoc : String :=
  "## /a.xml\nb.xml\n### Response headers recorded for playback\n```\nA: B\n```\n" ++
    "### Response body recorded for playback\n```\nbody\n```\n"

/-- A document carrying every anchor token of `MARKDOWN_REGEX` — heading
marker, `.xml` token, both sub-headings and code fences — but whose
response-body sub-heading is followed by no fenced block, so the third
anchor section is structurally missing even though no token is absent. -/
def missingFenceDoc : String :=
  "## /x.xml\n\n### Response headers recorded for playback\n\n```\nA: B\n```\n\n" ++
    "### Response body recorded for playback\nbody"

theorem String.join_cons (a : String) (l : List String) :
    String.join (a :: l) = a ++ String.join l := by
  have h : ∀ (l : List String) (x : String),
      l.foldl (fun r s => r ++ s) x = x ++ l.foldl (fun r s => r ++ s) "" := by
    intro l
    induction l with
    | nil => intro x; simp
    | cons b t ih =>
      intro x
      simp only [List.foldl_cons]
      rw [ih (x ++ b), ih ("" ++ b)]
      simp [String.append_assoc]
  simp only [String.join, List.foldl_cons]
  rw [h l ("" ++ a)]
  simp [String.append_assoc]

theorem join_map_chunked_filter (l : List (String × String)) :
    String.join ((chunked_filter l).map format_header) = renderHeaders l := by
  induction l with
  | nil => rfl
  | cons kv t ih =>
    obtain ⟨k, v⟩ := kv
    by_cases h : k = "Transfer-Encoding" ∧ v = "chunked"
    · have hfilt : (fun kv : String × String =>
          kv.1 != "Transfer-Encoding" || kv.2 != "chunked") (k, v) = false := by
        simp only [bne, Bool.or_eq_false_iff, Bool.not_eq_true']
        exact ⟨by simp [h.1], by simp [h.2]⟩
      simp only [chunked_filter, List.filter_cons, hfilt, renderHeaders, if_pos h]
      exact ih
    · have hfilt : (fun kv : String × String =>
          kv.1 != "Transfer-Encoding" || kv.2 != "chunked") (k, v) = true := by
        simp only [bne, Bool.or_eq_true, Bool.not_eq_true']
        by_cases hk : k = "Transfer-Encoding"
        · right
          have hv : ¬v = "chunked" := fun hv => h ⟨hk, hv⟩
          simp [hv]
        · left; simp [hk]
      simp only [chunked_filter, List.filter_cons, hfilt, List.map_cons,
        renderHeaders, if_neg h, format_header]
      rw [if_pos trivial, List.map_cons, String.join_cons]
      rw [← ih]
      simp [chunked_filter, format_header, String.append_assoc]

/-- C1: for every fixture record the playback handler emits exactly
`"HTTP/1.1 200 OK\r\n\r\n" ++ body` when the header list is empty, and
otherwise `"HTTP/1.1 200 OK\r\n"` followed by the chunked-filtered header
pairs rendered as `"Name: Value\r\n"` in original order, then `"\r\n"`,
then the body, and nothing else. -/
theorem C1_playback_response_bytes (pd : PlaybackData) :
    handle_playback pd =
      if pd.headers = [] then "HTTP/1.1 200 OK\r\n\r\n" ++ pd.response_body
      else "HTTP/1.1 200 OK\r\n" ++ renderHeaders pd.headers ++ "\r\n" ++ pd.response_body := by
  by_cases h : pd.headers = []
  · simp [handle_playback, h]
  · rw [if_neg h]
    have hne : pd.headers.isEmpty = false := by
      cases hh : pd.headers with
      | nil => exact absurd hh h
      | cons a t => simp
    simp only [handle_playback, hne, Bool.false_eq_true, if_false]
    rw [join_map_chunked_filter]

/-- C3: no pair that survives the chunked filter (the pairs whose rendered
header lines make up the emitted response) has name `Transfer-Encoding`
with value `chunked`, and the emitted response is built from exactly those
surviving pairs. -/
theorem C3_no_chunked_header_line (pd : PlaybackData) :
    ((chunked_filter pd.headers).all
      (fun kv => !(kv.1 == "Transfer-Encoding" && kv.2 == "chunked")) = true) ∧
    (pd.headers.isEmpty = false →
      handle_playback pd = "HTTP/1.1 200 OK\r\n" ++
        String.join ((chunked_filter pd.headers).map format_header) ++ "\r\n" ++
        pd.response_body) := by
  constructor
  · rw [List.all_eq_true]
    intro kv hkv
    have := List.of_mem_filter hkv
    simp only [bne, Bool.or_eq_true, Bool.not_eq_true'] at this
    simp only [Bool.not_eq_true', Bool.and_eq_false_iff]
    rcases this with h | h
    · left; exact h
    · right; exact h
  · intro h
    simp [handle_playback, h]

/-- Witness for C3 at a record that carries a chunked pair. -/
theorem C3_no_chunked_header_line_witness :
    handle_playback ⟨"u", [("Transfer-Encoding", "chunked"), ("A", "b")], "B"⟩ =
      "HTTP/1.1 200 OK\r\n" ++
        String.join ((chunked_filter [("Transfer-Encoding", "chunked"), ("A", "b")]).map
          format_header) ++ "\r\n" ++ "B" :=
  (C3_no_chunked_header_line ⟨"u", [("Transfer-Encoding", "chunked"), ("A", "b")], "B"⟩).2
    (by decide)

/-- C9: the emitted response is a function only of the body and the
chunked-filtered header list; in particular a record whose non-empty
header list consists only of `Transfer-Encoding: chunked` pairs produces
exactly the bytes of the empty-header-list case. -/
theorem C9_response_function_of_filtered (pd₁ pd₂ : PlaybackData)
    (hbody : pd₁.response_body = pd₂.response_body)
    (hheads : chunked_filter pd₁.headers = chunked_filter pd₂.headers) :
    handle_playback pd₁ = handle_playback pd₂ := by
  have key : ∀ pd : PlaybackData,
      handle_playback pd = "HTTP/1.1 200 OK\r\n" ++
        String.join ((chunked_filter pd.headers).map format_header) ++ "\r\n" ++
        pd.response_body := by
    intro pd
    by_cases h : pd.headers.isEmpty
    · have h0 : pd.headers = [] := by
        cases hh : pd.headers with
        | nil => rfl
        | cons a t => rw [hh] at h; simp at h
      simp only [handle_playback, h0, List.isEmpty_nil, if_true]
      have : chunked_filter ([] : List (String × String)) = [] := rfl
      rw [h0] at *
      simp only [this, List.map_nil]
      have hjoin : String.join ([] : List String) = "" := rfl
      rw [hjoin]
      have : ("HTTP/1.1 200 OK\r\n" : String) ++ "" ++ "\r\n" = "HTTP/1.1 200 OK\r\n\r\n" := by
        decide
      rw [String.append_assoc, String.append_assoc]
      have h2 : ("" : String) ++ ("\r\n" ++ pd.response_body) = "\r\n" ++ pd.response_body := by
        rw [← String.append_assoc]
        congr 1
      rw [h2, ← String.append_assoc]
      congr 1
    · have hne : pd.headers.isEmpty = false := by simpa using h
      simp [handle_playback, hne]
  rw [key pd₁, key pd₂, hbody, hheads]

/-- Witness for C9: a record whose headers are all chunked pairs emits the
same bytes as the record with no headers at all. -/
theorem C9_response_function_of_filtered_witness :
    handle_playback ⟨"u", [("Transfer-Encoding", "chunked"),
        ("Transfer-Encoding", "chunked")], "B"⟩ =
      handle_playback ⟨"u", [], "B"⟩ :=
  C9_response_function_of_filtered _ _ (by decide) (by decide)

/-- C10: the chunked filter removes a pair exactly when the name is the
string `Transfer-Encoding` and the value is the string `chunked`, compared
case-sensitively; case variants and other values are preserved, and they
appear in the emitted response bytes. -/
theorem C10_filter_case_sensitive :
    (∀ (hs : List (String × String)) (kv : String × String),
      kv ∈ chunked_filter hs ↔
        kv ∈ hs ∧ ¬(kv.1 = "Transfer-Encoding" ∧ kv.2 = "chunked")) ∧
    handle_playback ⟨"u", [("transfer-encoding", "chunked"), ("Transfer-Encoding", "Chunked"),
        ("Transfer-Encoding", "gzip"), ("Transfer-Encoding", "chunked")], "B"⟩ =
      "HTTP/1.1 200 OK\r\ntransfer-encoding: chunked\r\nTransfer-Encoding: Chunked\r\n" ++
        "Transfer-Encoding: gzip\r\n\r\nB" := by
  constructor
  · intro hs kv
    rw [chunked_filter, List.mem_filter]
    constructor
    · rintro ⟨hmem, hp⟩
      refine ⟨hmem, ?_⟩
      rintro ⟨h1, h2⟩
      simp only [bne, Bool.or_eq_true, Bool.not_eq_true'] at hp
      rcases hp with h | h
      · rw [h1] at h; simp at h
      · rw [h2] at h; simp at h
    · rintro ⟨hmem, hp⟩
      refine ⟨hmem, ?_⟩
      simp only [bne, Bool.or_eq_true, Bool.not_eq_true']
      by_cases h1 : kv.1 = "Transfer-Encoding"
      · right
        have h2 : ¬kv.2 = "chunked" := fun h2 => hp ⟨h1, h2⟩
        simp [h2]
      · left; simp [h1]
  · decide

theorem tryFirst_eq_some {α : Type u} {a b : Option α} {r : α}
    (h : tryFirst a b = some r) : a = some r ∨ (a = none ∧ b = some r) := by
  cases a with
  | some x => left; simpa [tryFirst] using h
  | none => right; exact ⟨rfl, by simpa [tryFirst] using h⟩

theorem isPrefixOf_extract :
    ∀ (lit s : List Char), lit.isPrefixOf s = true → s = lit ++ s.drop lit.length := by
  intro lit
  induction lit with
  | nil => intro s _; simp
  | cons x xs ih =>
    intro s h
    cases s with
    | nil => simp [List.isPrefixOf] at h
    | cons y ys =>
      simp only [List.isPrefixOf, Bool.and_eq_true, beq_iff_eq] at h
      obtain ⟨hxy, hrest⟩ := h
      subst hxy
      simp only [List.length_cons, List.drop_succ_cons, List.cons_append, List.cons.injEq,
        true_and]
      exact ih ys hrest

theorem isPrefixOf_self_append (a b : List Char) : a.isPrefixOf (a ++ b) = true := by
  induction a with
  | nil => simp [List.isPrefixOf]
  | cons x xs ih => simp [List.isPrefixOf, ih]

theorem lazyUntil_eq_some {α : Type u} (lit : List Char) (k : List Char → Option α) :
    ∀ (s : List Char) (r : α), lazyUntil lit k s = some r →
      ∃ a b, s = a ++ lit ++ b ∧ k b = some r := by
  intro s
  induction s with
  | nil =>
    intro r h
    cases hl : lit with
    | nil =>
      subst hl
      have h' : k [] = some r := by simpa [lazyUntil, List.isPrefixOf] using h
      exact ⟨[], [], rfl, h'⟩
    | cons x xs =>
      subst hl
      simp [lazyUntil, List.isPrefixOf] at h
  | cons c t ih =>
    intro r h
    simp only [lazyUntil] at h
    rcases tryFirst_eq_some h with h1 | ⟨_, h2⟩
    · by_cases hp : lit.isPrefixOf (c :: t)
      · rw [if_pos hp] at h1
        exact ⟨[], (c :: t).drop lit.length, isPrefixOf_extract lit (c :: t) hp, h1⟩
      · rw [if_neg hp] at h1; cases h1
    · obtain ⟨a, b, hab, hk⟩ := ih r h2
      exact ⟨c :: a, b, by simp [hab], hk⟩

theorem greedyStar_eq_some {α : Type u} (p : Char → Bool) (k : List Char → Option α) :
    ∀ (s : List Char) (r : α), greedyStar p k s = some r →
      ∃ a b, s = a ++ b ∧ (∀ c ∈ a, p c = true) ∧ k b = some r := by
  intro s
  induction s with
  | nil =>
    intro r h
    simp only [greedyStar] at h
    exact ⟨[], [], rfl, fun c hc => absurd hc (List.not_mem_nil c), h⟩
  | cons c t ih =>
    intro r h
    simp only [greedyStar] at h
    by_cases hp : p c
    · rw [if_pos hp] at h
      rcases tryFirst_eq_some h with h1 | ⟨_, h2⟩
      · obtain ⟨a, b, hab, hall, hk⟩ := ih r h1
        refine ⟨c :: a, b, by simp [hab], ?_, hk⟩
        intro x hx
        rcases List.mem_cons.mp hx with hx | hx
        · subst hx; exact hp
        · exact hall x hx
      · exact ⟨[], c :: t, rfl, fun x hx => absurd hx (List.not_mem_nil x), h2⟩
    · rw [if_neg hp] at h
      exact ⟨[], c :: t, rfl, fun x hx => absurd hx (List.not_mem_nil x), h⟩

theorem greedyDotLit_eq_some {α : Type u} (lit : List Char) :
    ∀ (s : List Char) (k : List Char → List Char → Option α) (r : α),
      greedyDotLit lit k s = some r →
      ∃ a b a0, s = a ++ b ∧ a = a0 ++ lit ∧ k a b = some r := by
  intro s
  induction s with
  | nil =>
    intro k r h
    cases hl : lit with
    | nil =>
      subst hl
      have h' : k [] [] = some r := by simpa [greedyDotLit, List.isPrefixOf] using h
      exact ⟨[], [], [], rfl, rfl, h'⟩
    | cons x xs =>
      subst hl
      simp [greedyDotLit, List.isPrefixOf] at h
  | cons c t ih =>
    intro k r h
    simp only [greedyDotLit] at h
    rcases tryFirst_eq_some h with h1 | ⟨_, h2⟩
    · obtain ⟨a, b, a0, hab, ha, hk⟩ := ih (fun cap rem => k (c :: cap) rem) r h1
      exact ⟨c :: a, b, c :: a0, by simp [hab], by simp [ha], hk⟩
    · by_cases hp : lit.isPrefixOf (c :: t)
      · rw [if_pos hp] at h2
        exact ⟨lit, (c :: t).drop lit.length, [],
          isPrefixOf_extract lit (c :: t) hp, by simp, h2⟩
      · rw [if_neg hp] at h2; cases h2

theorem lazyCapThen_eq_some {α : Type u} (lit : List Char) :
    ∀ (s : List Char) (k : List Char → List Char → Option α) (r : α),
      lazyCapThen lit k s = some r →
      ∃ h w b, s = h ++ w ++ lit ++ b ∧ (∀ c ∈ w, isWs c = true) ∧ k h b = some r := by
  intro s
  induction s with
  | nil =>
    intro k r hh
    cases hl : lit with
    | nil =>
      subst hl
      have h' : k [] [] = some r := by
        simpa [lazyCapThen, greedyStar, List.isPrefixOf] using hh
      exact ⟨[], [], [], rfl, fun c hc => absurd hc (List.not_mem_nil c), h'⟩
    | cons x xs =>
      subst hl
      simp [lazyCapThen, greedyStar, List.isPrefixOf] at hh
  | cons c t ih =>
    intro k r hh
    simp only [lazyCapThen] at hh
    rcases tryFirst_eq_some hh with h1 | ⟨_, h2⟩
    · obtain ⟨w, b', hwb, hall, hchk⟩ := greedyStar_eq_some isWs _ (c :: t) r h1
      by_cases hp : lit.isPrefixOf b'
      · rw [if_pos hp] at hchk
        obtain ⟨d, hd⟩ : ∃ d, b' = lit ++ d := ⟨_, isPrefixOf_extract lit b' hp⟩
        have hdrop : b'.drop lit.length = d := by
          rw [hd]; exact List.drop_left _ _
        rw [hdrop] at hchk
        refine ⟨[], w, d, ?_, hall, hchk⟩
        simp only [List.nil_append]
        rw [hwb, hd, List.append_assoc]
      · rw [if_neg hp] at hchk; cases hchk
    · obtain ⟨h, w, b, hab, hall, hk⟩ := ih (fun cap rem => k (c :: cap) rem) r h2
      exact ⟨c :: h, w, b, by simp [hab], hall, hk⟩

theorem occurs_mono (pat : List Char) :
    ∀ (a t : List Char), occurs pat t = true → occurs pat (a ++ t) = true := by
  intro a
  induction a with
  | nil => intro t h; simpa using h
  | cons y a' ih =>
    intro t h
    show (pat.isPrefixOf (y :: (a' ++ t)) || occurs pat (a' ++ t)) = true
    rw [ih t h, Bool.or_true]

theorem occurs_head (pat b : List Char) : occurs pat (pat ++ b) = true := by
  cases hpb : pat ++ b with
  | nil =>
    have hp : pat = [] := by
      cases pat with
      | nil => rfl
      | cons x xs => simp at hpb
    subst hp
    simp [occurs, List.isPrefixOf]
  | cons x xs =>
    simp only [occurs]
    rw [← hpb, isPrefixOf_self_append]
    simp

theorem markdownCaptures_parts (s u hp bp : List Char)
    (hm : markdownCaptures s = some (u, hp, bp)) :
    ∃ a1 a2 b3 a0,
      s = a1 ++ "## ".data ++ a2 ++ u ++ b3 ∧
      (∀ c ∈ a2, (c != '/') = true) ∧
      u = a0 ++ ".xml".data ∧
      occurs anchorHeaders b3 = true ∧
      occurs anchorBody b3 = true ∧
      occurs fenceLit b3 = true := by
  unfold markdownCaptures at hm
  obtain ⟨a1, b1, hs1, hk1⟩ := lazyUntil_eq_some _ _ _ _ hm
  obtain ⟨a2, b2, hs2, hall2, hk2⟩ := greedyStar_eq_some _ _ _ _ hk1
  obtain ⟨a3, b3, a30, hs3, ha3, hk3⟩ := greedyDotLit_eq_some _ _ _ _ hk2
  obtain ⟨a4, b4, hs4, hk4⟩ := lazyUntil_eq_some _ _ _ _ hk3
  obtain ⟨a5, b5, hs5, hk5⟩ := lazyUntil_eq_some _ _ _ _ hk4
  obtain ⟨a6, b6, hs6, hall6, hk6⟩ := greedyStar_eq_some _ _ _ _ hk5
  obtain ⟨h7, w7, b7, hs7, hall7, hk7⟩ := lazyCapThen_eq_some _ _ _ _ hk6
  obtain ⟨a8, b8, hs8, hk8⟩ := lazyUntil_eq_some _ _ _ _ hk7
  obtain ⟨a9, b9, hs9, hk9⟩ := lazyUntil_eq_some _ _ _ _ hk8
  obtain ⟨a10, b10, hs10, hall10, hk10⟩ := greedyStar_eq_some _ _ _ _ hk9
  obtain ⟨h11, w11, b11, hs11, hall11, hk11⟩ := lazyCapThen_eq_some _ _ _ _ hk10
  simp only [Option.some.injEq, Prod.mk.injEq] at hk11
  obtain ⟨heu, hehp, hebp⟩ := hk11
  have hAB7 : occurs anchorBody b7 = true := by
    rw [hs8, List.append_assoc]
    exact occurs_mono _ _ _ (occurs_head _ _)
  have hAB6 : occurs anchorBody b6 = true := by
    rw [hs7]
    exact occurs_mono _ _ _ hAB7
  have hAB5 : occurs anchorBody b5 = true := by
    rw [hs6]
    exact occurs_mono _ _ _ hAB6
  have hAB4 : occurs anchorBody b4 = true := by
    rw [hs5]
    exact occurs_mono _ _ _ hAB5
  have hAB3 : occurs anchorBody b3 = true := by
    rw [hs4]
    exact occurs_mono _ _ _ hAB4
  have hF5 : occurs fenceLit b4 = true := by
    rw [hs5, List.append_assoc]
    exact occurs_mono _ _ _ (occurs_head _ _)
  have hF3 : occurs fenceLit b3 = true := by
    rw [hs4]
    exact occurs_mono _ _ _ hF5
  have hAH3 : occurs anchorHeaders b3 = true := by
    rw [hs4, List.append_assoc]
    exact occurs_mono _ _ _ (occurs_head _ _)
  refine ⟨a1, a2, b3, a30, ?_, hall2, by rw [← heu]; exact ha3, hAH3, hAB3, hF3⟩
  rw [hs1, hs2, hs3, ← heu]
  simp [List.append_assoc]

theorem markdownCaptures_occurs (s u hp bp : List Char)
    (hm : markdownCaptures s = some (u, hp, bp)) :
    occurs "## ".data s = true ∧ occurs ".xml".data s = true ∧
    occurs anchorHeaders s = true ∧ occurs anchorBody s = true ∧
    occurs fenceLit s = true := by
  obtain ⟨a1, a2, b3, a0, hs, _, hu, hAH, hAB, hF⟩ :=
    markdownCaptures_parts s u hp bp hm
  have hs' : s = a1 ++ ("## ".data ++ (a2 ++ (u ++ b3))) := by
    rw [hs]; simp [List.append_assoc]
  constructor
  · rw [hs']
    exact occurs_mono _ _ _ (occurs_head _ _)
  refine ⟨?_, ?_, ?_, ?_⟩
  · have hs'' : s = a1 ++ ("## ".data ++ (a2 ++ (a0 ++ (".xml".data ++ b3)))) := by
      rw [hs, hu]; simp [List.append_assoc]
    rw [hs'']
    exact occurs_mono _ _ _ (occurs_mono _ _ _ (occurs_mono _ _ _
      (occurs_mono _ _ _ (occurs_head _ _))))
  · rw [hs']
    exact occurs_mono _ _ _ (occurs_mono _ _ _ (occurs_mono _ _ _
      (occurs_mono _ _ _ hAH)))
  · rw [hs']
    exact occurs_mono _ _ _ (occurs_mono _ _ _ (occurs_mono _ _ _
      (occurs_mono _ _ _ hAB)))
  · rw [hs']
    exact occurs_mono _ _ _ (occurs_mono _ _ _ (occurs_mono _ _ _
      (occurs_mono _ _ _ hF)))

theorem drop_append_le (v : List Char) :
    ∀ (u : List Char) (n : Nat), n ≤ u.length → (u ++ v).drop n = u.drop n ++ v := by
  intro u
  induction u with
  | nil =>
    intro n hn
    have h0 : n = 0 := Nat.le_zero.mp hn
    subst h0
    simp
  | cons c t ih =>
    intro n hn
    cases n with
    | zero => simp
    | succ m =>
      simp only [List.cons_append, List.drop_succ_cons]
      exact ih m (by simpa using hn)

theorem dropAfter_of_split (lit : List Char) :
    ∀ (a b : List Char), ∃ x rest,
      dropAfter lit (a ++ (lit ++ b)) = some rest ∧ rest = x ++ b := by
  intro a
  induction a with
  | nil =>
    intro b
    refine ⟨[], b, ?_, by simp⟩
    show dropAfter lit (lit ++ b) = some b
    cases lit with
    | nil =>
      cases b with
      | nil => decide
      | cons c t =>
        show dropAfter ([] : List Char) (c :: t) = some (c :: t)
        simp [dropAfter, List.isPrefixOf]
    | cons y ys =>
      show dropAfter (y :: ys) ((y :: ys) ++ b) = some b
      have hpre : (y :: ys).isPrefixOf ((y :: ys) ++ b) = true :=
        isPrefixOf_self_append (y :: ys) b
      have hgoal : dropAfter (y :: ys) ((y :: ys) ++ b) =
          if (y :: ys).isPrefixOf ((y :: ys) ++ b) = true then
            some (List.drop (y :: ys).length ((y :: ys) ++ b))
          else dropAfter (y :: ys) (ys ++ b) := rfl
      rw [hgoal, if_pos hpre, List.drop_left]
  | cons c a' ih =>
    intro b
    rw [List.cons_append]
    by_cases hp : lit.isPrefixOf (c :: (a' ++ (lit ++ b)))
    · have hlen : lit.length ≤ (c :: (a' ++ lit)).length := by
        simp only [List.length_cons, List.length_append]
        omega
      refine ⟨(c :: (a' ++ lit)).drop lit.length,
        List.drop lit.length (c :: (a' ++ (lit ++ b))), ?_, ?_⟩
      · simp only [dropAfter]
        rw [if_pos hp]
      · have hsplit : c :: (a' ++ (lit ++ b)) = (c :: (a' ++ lit)) ++ b := by
          simp [List.append_assoc]
        rw [hsplit, drop_append_le b (c :: (a' ++ lit)) lit.length hlen]
    · obtain ⟨x, rest, hda, hrest⟩ := ih b
      refine ⟨x, rest, ?_, hrest⟩
      simp only [dropAfter]
      rw [if_neg hp]
      exact hda

theorem chainSplit_mono (L : List (List Char)) (x b : List Char)
    (h : chainSplit L b) : chainSplit L (x ++ b) := by
  cases L with
  | nil => trivial
  | cons lit lits =>
    obtain ⟨a, b', hs, hr⟩ := h
    exact ⟨x ++ a, b', by rw [hs]; simp [List.append_assoc], hr⟩

theorem chainSplit_cons (lit : List Char) (L : List (List Char))
    (a b s : List Char) (hs : s = a ++ lit ++ b) (h : chainSplit L b) :
    chainSplit (lit :: L) s :=
  ⟨a, b, hs, h⟩

theorem seqOccurs_of_chainSplit :
    ∀ (L : List (List Char)) (s : List Char), chainSplit L s → seqOccurs L s = true := by
  intro L
  induction L with
  | nil => intro s _; rfl
  | cons lit lits ih =>
    intro s hch
    obtain ⟨a, b, hs, hr⟩ := hch
    obtain ⟨x, rest, hda, hrest⟩ := dropAfter_of_split lit a b
    have hs2 : s = a ++ (lit ++ b) := by rw [hs, List.append_assoc]
    have hcr : chainSplit lits rest := by
      subst hrest
      exact chainSplit_mono lits x b hr
    show (match dropAfter lit s with
      | none => false
      | some rest => seqOccurs lits rest) = true
    rw [hs2, hda]
    exact ih rest hcr

theorem not_chainSplit_of_seqOccurs_false (L : List (List Char)) (s : List Char)
    (h : seqOccurs L s = false) : ¬ chainSplit L s := by
  intro hch
  rw [seqOccurs_of_chainSplit L s hch] at h
  cases h

theorem markdownCaptures_chainSplit (s u hp bp : List Char)
    (hm : markdownCaptures s = some (u, hp, bp)) :
    chainSplit anchorChain s := by
  unfold markdownCaptures at hm
  obtain ⟨a1, b1, hs1, hk1⟩ := lazyUntil_eq_some _ _ _ _ hm
  obtain ⟨a2, b2, hs2, hall2, hk2⟩ := greedyStar_eq_some _ _ _ _ hk1
  obtain ⟨a3, b3, a30, hs3, ha3, hk3⟩ := greedyDotLit_eq_some _ _ _ _ hk2
  obtain ⟨a4, b4, hs4, hk4⟩ := lazyUntil_eq_some _ _ _ _ hk3
  obtain ⟨a5, b5, hs5, hk5⟩ := lazyUntil_eq_some _ _ _ _ hk4
  obtain ⟨a6, b6, hs6, hall6, hk6⟩ := greedyStar_eq_some _ _ _ _ hk5
  obtain ⟨h7, w7, b7, hs7, hall7, hk7⟩ := lazyCapThen_eq_some _ _ _ _ hk6
  obtain ⟨a8, b8, hs8, hk8⟩ := lazyUntil_eq_some _ _ _ _ hk7
  obtain ⟨a9, b9, hs9, hk9⟩ := lazyUntil_eq_some _ _ _ _ hk8
  obtain ⟨a10, b10, hs10, hall10, hk10⟩ := greedyStar_eq_some _ _ _ _ hk9
  obtain ⟨h11, w11, b11, hs11, hall11, hk11⟩ := lazyCapThen_eq_some _ _ _ _ hk10
  have t10 : chainSplit [fenceLit] b10 :=
    chainSplit_cons fenceLit [] (h11 ++ w11) b11 b10 hs11 True.intro
  have t9 : chainSplit [fenceLit] b9 := by
    rw [hs10]
    exact chainSplit_mono _ a10 b10 t10
  have t8 : chainSplit [fenceLit, fenceLit] b8 :=
    chainSplit_cons fenceLit _ a9 b9 b8 hs9 t9
  have t7 : chainSplit [anchorBody, fenceLit, fenceLit] b7 :=
    chainSplit_cons anchorBody _ a8 b8 b7 hs8 t8
  have t6 : chainSplit [fenceLit, anchorBody, fenceLit, fenceLit] b6 :=
    chainSplit_cons fenceLit _ (h7 ++ w7) b7 b6 hs7 t7
  have t5 : chainSplit [fenceLit, anchorBody, fenceLit, fenceLit] b5 := by
    rw [hs6]
    exact chainSplit_mono _ a6 b6 t6
  have t4 : chainSplit [fenceLit, fenceLit, anchorBody, fenceLit, fenceLit] b4 :=
    chainSplit_cons fenceLit _ a5 b5 b4 hs5 t5
  have t3 : chainSplit
      [anchorHeaders, fenceLit, fenceLit, anchorBody, fenceLit, fenceLit] b3 :=
    chainSplit_cons anchorHeaders _ a4 b4 b3 hs4 t4
  have t2 : chainSplit
      [".xml".data, anchorHeaders, fenceLit, fenceLit, anchorBody, fenceLit, fenceLit]
      b2 :=
    chainSplit_cons ".xml".data _ a30 b3 b2 (by rw [hs3, ha3]) t3
  have t1 : chainSplit
      [".xml".data, anchorHeaders, fenceLit, fenceLit, anchorBody, fenceLit, fenceLit]
      b1 := by
    rw [hs2]
    exact chainSplit_mono _ a2 b2 t2
  exact chainSplit_cons "## ".data _ a1 b1 s hs1 t1

/-- C2: a fixture document that does not contain, in relative order and
without overlap, the anchor chain of `MARKDOWN_REGEX` — the `## ` heading
marker, a `.xml` uri token, the response-headers sub-heading followed by
a fenced block (two code fences), and the response-body sub-heading
followed by a fenced block — is rejected with `InvalidMarkdownFormat`.
This covers a document missing any of the three anchor sections
structurally (a sub-heading with no following fence, or sections out of
relative order), not merely one lacking a token outright; and decoding
never yields anything but a complete record or that error. -/
theorem C2_missing_anchor_fails (doc : String) :
    (¬ chainSplit anchorChain doc.data →
      decodePlayback doc = .error .invalidMarkdownFormat) ∧
    ((∃ pd, decodePlayback doc = .ok pd) ∨
      decodePlayback doc = .error .invalidMarkdownFormat) := by
  cases hm : markdownCaptures doc.data with
  | none =>
    constructor
    · intro _
      simp [decodePlayback, hm]
    · right
      simp [decodePlayback, hm]
  | some val =>
    obtain ⟨u, hp, bp⟩ := val
    have hch := markdownCaptures_chainSplit doc.data u hp bp hm
    constructor
    · intro hmiss
      exact absurd hch hmiss
    · left
      exact ⟨⟨String.mk u, parse_headers (String.mk hp), String.mk bp⟩,
        by simp [decodePlayback, hm]⟩

/-- Witness for C2 at `missingFenceDoc`: every anchor token occurs in the
document, but the response-body sub-heading is followed by no fence, so
the ordered anchor chain is broken and decoding reports the error. -/
theorem C2_missing_anchor_fails_witness :
    decodePlayback missingFenceDoc = .error .invalidMarkdownFormat :=
  (C2_missing_anchor_fails missingFenceDoc).1
    (not_chainSplit_of_seqOccurs_false anchorChain missingFenceDoc.data (by decide))

/-- Counterexample to C5 as stated: in `multilineUriDoc` the heading line
is `## /a.xml`, whose text between the marker and the line end (trimmed)
is `/a.xml`, yet the decoded `uri` is `/a.xml\nb.xml`, which runs past the
newline into the next line. -/
theorem C5_counterexample :
    decodePlayback multilineUriDoc =
      .ok ⟨"/a.xml\nb.xml", [("A", "B")], "body"⟩ ∧
    "/a.xml\nb.xml" ≠ "/a.xml" ∧ '\n' ∈ ("/a.xml\nb.xml").data := by
  refine ⟨?_, by decide, by decide⟩
  have h1 : markdownCaptures multilineUriDoc.data =
      some (("/a.xml\nb.xml").data, ("A: B").data, ("body").data) := by decide
  simp only [decodePlayback, h1]
  simp +decide [parse_headers, headerScan, rustTrim, List.dropWhile, List.takeWhile,
    isKeyChar, isWs]

/-- C5 as amended: for every accepted document the `uri` field is a
substring of the document that follows a `## ` marker and a slash-free
stretch and ends in `.xml`; it may span line ends and is not trimmed. -/
theorem C5_corrected_uri_shape (doc : String) (r : PlaybackData)
    (h : decodePlayback doc = .ok r) :
    (∃ a0, r.uri.data = a0 ++ ".xml".data) ∧
    (∃ pre mid post, doc.data = pre ++ "## ".data ++ mid ++ r.uri.data ++ post ∧
      ∀ c ∈ mid, (c != '/') = true) := by
  rw [decodePlayback] at h
  cases hm : markdownCaptures doc.data with
  | none => rw [hm] at h; cases h
  | some val =>
    obtain ⟨u, hparts, bparts⟩ := val
    rw [hm] at h
    have hr : r = ⟨String.mk u, parse_headers (String.mk hparts), String.mk bparts⟩ := by
      cases h; rfl
    obtain ⟨a1, a2, b3, a0, hs, hall, hu, _, _, _⟩ :=
      markdownCaptures_parts doc.data u hparts bparts hm
    subst hr
    exact ⟨⟨a0, hu⟩, ⟨a1, a2, b3, hs, hall⟩⟩

/-- Witness for the amended C5 at `multilineUriDoc`. -/
theorem C5_corrected_uri_shape_witness :
    (∃ a0, (PlaybackData.mk "/a.xml\nb.xml" [("A", "B")] "body").uri.data =
      a0 ++ ".xml".data) ∧
    (∃ pre mid post, multilineUriDoc.data = pre ++ "## ".data ++ mid ++
      (PlaybackData.mk "/a.xml\nb.xml" [("A", "B")] "body").uri.data ++ post ∧
      ∀ c ∈ mid, (c != '/') = true) :=
  C5_corrected_uri_shape multilineUriDoc _ (by
    have h1 : markdownCaptures multilineUriDoc.data =
        some (("/a.xml\nb.xml").data, ("A: B").data, ("body").data) := by decide
    simp only [decodePlayback, h1]
    simp +decide [parse_headers, headerScan, rustTrim, List.dropWhile, List.takeWhile,
      isKeyChar, isWs])

theorem takeWhile_append_run (p : Char → Bool) :
    ∀ (a b : List Char), (∀ c ∈ a, p c = true) →
      (b = [] ∨ ∃ d b2, b = d :: b2 ∧ p d = false) →
      (a ++ b).takeWhile p = a ∧ (a ++ b).dropWhile p = b := by
  intro a
  induction a with
  | nil =>
    intro b _ hb
    rcases hb with hb | ⟨d, b2, hb, hd⟩
    · subst hb; simp [List.takeWhile, List.dropWhile]
    · subst hb
      constructor
      · simp [List.takeWhile, hd]
      · simp [List.dropWhile, hd]
  | cons x a' ih =>
    intro b ha hb
    have hx : p x = true := ha x (List.mem_cons_self x a')
    have ha' : ∀ c ∈ a', p c = true := fun c hc => ha c (List.mem_cons_of_mem x hc)
    obtain ⟨ht, hd⟩ := ih b ha' hb
    constructor
    · simp only [List.cons_append, List.takeWhile_cons, hx, if_true, ht]
    · simp only [List.cons_append, List.dropWhile_cons, hx, if_true, hd]

theorem drop_length_takeWhile (p : Char → Bool) :
    ∀ (l : List Char), l.drop (l.takeWhile p).length = l.dropWhile p := by
  intro l
  induction l with
  | nil => simp
  | cons c t ih =>
    by_cases hc : p c
    · simp only [List.takeWhile_cons, hc, if_true, List.length_cons, List.drop_succ_cons,
        List.dropWhile_cons, ih]
    · simp only [List.takeWhile_cons, List.dropWhile_cons, hc]
      simp

theorem splitLines_ne_nil : ∀ (s : List Char), splitLines s ≠ [] := by
  intro s
  cases s with
  | nil => simp [splitLines]
  | cons c t =>
    by_cases hc : c = '\n'
    · simp [splitLines, hc]
    · simp only [splitLines, hc, if_false]
      cases hq : splitLines t with
      | nil => simp
      | cons l ls => simp

theorem splitLines_append_first :
    ∀ (a b : List Char) (l : List Char) (ls : List (List Char)),
      ('\n' ∈ a → False) → splitLines b = l :: ls →
      splitLines (a ++ b) = (a ++ l) :: ls := by
  intro a
  induction a with
  | nil => intro b l ls _ hb; simpa using hb
  | cons x a' ih =>
    intro b l ls hnl hb
    have hx : ¬x = '\n' := fun hx => hnl (hx ▸ List.mem_cons_self x a')
    have hnl' : '\n' ∈ a' → False := fun h => hnl (List.mem_cons_of_mem x h)
    have hrec := ih b l ls hnl' hb
    simp only [List.cons_append, splitLines, hx, if_false]
    have hrec2 : splitLines (a'.append b) = (a' ++ l) :: ls := hrec
    rw [hrec2]

theorem splitLines_no_nl (a : List Char) (hnl : '\n' ∈ a → False) :
    splitLines a = [a] := by
  have : splitLines (a ++ []) = (a ++ []) :: [] :=
    splitLines_append_first a [] [] [] hnl (by simp [splitLines])
  simpa using this

theorem dropWhile_head_not (p : Char → Bool) :
    ∀ (l : List Char) (d : Char) (t : List Char),
      l.dropWhile p = d :: t → p d = false := by
  intro l
  induction l with
  | nil => intro d t h; simp [List.dropWhile] at h
  | cons x xs ih =>
    intro d t h
    by_cases hx : p x
    · rw [List.dropWhile_cons_of_pos hx] at h
      exact ih d t h
    · rw [List.dropWhile_cons_of_neg hx] at h
      cases h
      simpa using hx

theorem mem_takeWhile_pred (p : Char → Bool) :
    ∀ (l : List Char) (x : Char), x ∈ l.takeWhile p → p x = true := by
  intro l
  induction l with
  | nil => intro x h; simp [List.takeWhile] at h
  | cons c t ih =>
    intro x h
    by_cases hc : p c
    · rw [List.takeWhile_cons_of_pos hc] at h
      rcases List.mem_cons.mp h with h | h
      · subst h; exact hc
      · exact ih x h
    · rw [List.takeWhile_cons_of_neg hc] at h
      cases h

theorem splitLines_head_shape (x : Char) (y : List Char) (l : List Char)
    (ls : List (List Char)) (h : splitLines (x :: y) = l :: ls) :
    (x = '\n' ∧ l = []) ∨ (¬x = '\n' ∧ ∃ l2, l = x :: l2) := by
  by_cases hx : x = '\n'
  · left
    refine ⟨hx, ?_⟩
    subst hx
    simp only [splitLines, if_pos rfl] at h
    exact (List.cons.inj h).1.symm
  · right
    refine ⟨hx, ?_⟩
    simp only [splitLines, hx, if_false] at h
    cases hq : splitLines y with
    | nil => exact absurd hq (splitLines_ne_nil y)
    | cons l5 ls5 =>
      rw [hq] at h
      exact ⟨l5, (List.cons.inj h).1.symm⟩

theorem specLineHeader_run (c : Char) (cs : List Char) (v : List Char)
    (hc : isKeyChar c = true) (hcs : ∀ x ∈ cs, isKeyChar x = true) :
    specLineHeader (c :: (cs ++ ':' :: ' ' :: v)) = some (c :: cs, v) := by
  obtain ⟨ht, hd⟩ := takeWhile_append_run isKeyChar cs (':' :: ' ' :: v) hcs
    (Or.inr ⟨':', ' ' :: v, rfl, by decide⟩)
  simp only [specLineHeader, hc, if_true]
  rw [hd, ht]
  rfl

theorem specLineHeader_not_key (c : Char) (l : List Char) (hc : isKeyChar c = false) :
    specLineHeader (c :: l) = specLineHeader l := by
  simp [specLineHeader, hc]

theorem specLineHeader_wildcard (c : Char) (cs l : List Char)
    (hc : isKeyChar c = true) (hcs : ∀ x ∈ cs, isKeyChar x = true)
    (hl : l = [] ∨ ∃ d l2, l = d :: l2 ∧ isKeyChar d = false)
    (hnot : ∀ l3, l ≠ ':' :: ' ' :: l3) :
    specLineHeader (c :: (cs ++ l)) = specLineHeader l := by
  obtain ⟨ht, hd⟩ := takeWhile_append_run isKeyChar cs l hcs hl
  simp only [specLineHeader, hc, if_true]
  rw [hd]
  split
  · rename_i v
    exact absurd rfl (hnot v)
  · rfl

theorem headerScan_nil : headerScan [] = [] := by
  simp [headerScan]

theorem headerScan_not_key (c : Char) (l : List Char) (hc : isKeyChar c = false) :
    headerScan (c :: l) = headerScan l := by
  simp [headerScan, hc]

theorem headerScan_run_match (c : Char) (t r2 : List Char)
    (hc : isKeyChar c = true) (hr : t.dropWhile isKeyChar = ':' :: ' ' :: r2) :
    headerScan (c :: t) =
      (c :: t.takeWhile isKeyChar, r2.takeWhile (fun d => d != '\n')) ::
        headerScan (r2.drop (r2.takeWhile (fun d => d != '\n')).length) := by
  have harith : ∀ (n : Nat), (':' :: ' ' :: r2).drop (2 + n) = r2.drop n := by
    intro n
    rw [Nat.add_comm 2 n]
    simp [List.drop_succ_cons]
  simp only [headerScan, hc, if_true]
  rw [hr]
  split
  · rename_i r2' heq
    obtain rfl : r2 = r2' := by simpa using heq
    rw [harith]
  · rename_i x hne
    exact absurd rfl (hne r2)

theorem headerScan_run_wild (c : Char) (t : List Char)
    (hc : isKeyChar c = true)
    (hnot : ∀ r2, t.dropWhile isKeyChar ≠ ':' :: ' ' :: r2) :
    headerScan (c :: t) = headerScan (t.dropWhile isKeyChar) := by
  simp only [headerScan, hc, if_true]

theorem splitLines_cons_not_nl (x : Char) (y : List Char) (l : List Char)
    (ls : List (List Char)) (hx : ¬x = '\n') (h : splitLines y = l :: ls) :
    splitLines (x :: y) = (x :: l) :: ls := by
  simp only [splitLines, hx, if_false]
  rw [h]

theorem splitLines_uncons (s : List Char) : ∃ l ls, splitLines s = l :: ls := by
  cases hq : splitLines s with
  | nil => exact absurd hq (splitLines_ne_nil s)
  | cons a b => exact ⟨a, b, rfl⟩

theorem headerScan_eq_perLine (s : List Char) :
    headerScan s =
      ((splitLines s).map (fun l => (specLineHeader l).toList)).flatten := by
  have main : ∀ (n : Nat) (s : List Char), s.length ≤ n →
      headerScan s =
        ((splitLines s).map (fun l => (specLineHeader l).toList)).flatten := by
    intro n
    induction n with
    | zero =>
      intro s hs
      have h0 : s = [] := List.length_eq_zero.mp (Nat.le_zero.mp hs)
      subst h0
      simp [headerScan_nil, splitLines, specLineHeader]
    | succ n ih =>
      intro s hs
      cases s with
      | nil => simp [headerScan_nil, splitLines, specLineHeader]
      | cons c t =>
        have hlt : t.length ≤ n := by
          simp only [List.length_cons] at hs
          omega
        by_cases hkey : isKeyChar c = true
        · cases hr : t.dropWhile isKeyChar with
          | nil =>
            have hnotp : ∀ r2, t.dropWhile isKeyChar ≠ ':' :: ' ' :: r2 := by
              intro r2 h
              rw [hr] at h
              cases h
            rw [headerScan_run_wild c t hkey hnotp, hr, headerScan_nil]
            have hall : ∀ x ∈ t, isKeyChar x = true :=
              fun x hx => List.dropWhile_eq_nil_iff.mp hr x hx
            have hnlmem : '\n' ∈ (c :: t) → False := by
              intro hmem
              rcases List.mem_cons.mp hmem with h | h
              · rw [← h] at hkey
                simp [isKeyChar] at hkey
              · have := hall _ h
                simp [isKeyChar] at this
            rw [splitLines_no_nl _ hnlmem]
            have hnone : specLineHeader (c :: t) = none := by
              simp only [specLineHeader, hkey, if_true]
              rw [hr]
              simp [specLineHeader]
            simp [hnone]
          | cons d rest1 =>
            by_cases hpat : ∃ r2, t.dropWhile isKeyChar = ':' :: ' ' :: r2
            · obtain ⟨r2, hr2⟩ := hpat
              rw [headerScan_run_match c t r2 hkey hr2]
              have htw : ∀ x ∈ t.takeWhile isKeyChar, isKeyChar x = true :=
                fun x hx => mem_takeWhile_pred isKeyChar t x hx
              have hteq : t = t.takeWhile isKeyChar ++ ':' :: ' ' :: r2 := by
                conv_lhs => rw [← List.takeWhile_append_dropWhile (p := isKeyChar) (l := t)]
                rw [hr2]
              cases hd2 : r2.dropWhile (fun x => x != '\n') with
              | nil =>
                have hrv : r2.takeWhile (fun x => x != '\n') = r2 := by
                  conv_rhs => rw [← List.takeWhile_append_dropWhile
                    (p := fun x => x != '\n') (l := r2)]
                  rw [hd2]
                  simp
                have hdrop : r2.drop (r2.takeWhile (fun x => x != '\n')).length = [] := by
                  rw [drop_length_takeWhile, hd2]
                rw [hdrop, headerScan_nil]
                have hnlmem : '\n' ∈ (c :: t) → False := by
                  intro hmem
                  rcases List.mem_cons.mp hmem with h | h
                  · rw [← h] at hkey
                    simp [isKeyChar] at hkey
                  · rw [hteq] at h
                    rcases List.mem_append.mp h with h | h
                    · have := htw _ h
                      simp [isKeyChar] at this
                    · rcases List.mem_cons.mp h with h | h
                      · exact absurd h (by decide)
                      · rcases List.mem_cons.mp h with h | h
                        · exact absurd h (by decide)
                        · have := List.dropWhile_eq_nil_iff.mp hd2 _ h
                          simp at this
                rw [splitLines_no_nl _ hnlmem]
                have hline : specLineHeader (c :: t) =
                    some (c :: t.takeWhile isKeyChar, r2) := by
                  conv_lhs => rw [hteq]
                  exact specLineHeader_run c _ r2 hkey htw
                simp [hline, hrv]
              | cons nl rest3 =>
                have hnleq : nl = '\n' := by
                  have := dropWhile_head_not (fun x => x != '\n') r2 nl rest3 hd2
                  simpa using this
                subst hnleq
                have hdrop : r2.drop (r2.takeWhile (fun x => x != '\n')).length =
                    '\n' :: rest3 := by
                  rw [drop_length_takeWhile, hd2]
                rw [hdrop, headerScan_not_key '\n' rest3 (by decide)]
                have hr2eq : r2 = r2.takeWhile (fun x => x != '\n') ++ '\n' :: rest3 := by
                  conv_lhs => rw [← List.takeWhile_append_dropWhile
                    (p := fun x => x != '\n') (l := r2)]
                  rw [hd2]
                have hlen3 : rest3.length ≤ n := by
                  have e1 := congrArg List.length hteq
                  have e2 := congrArg List.length hr2eq
                  simp only [List.length_append, List.length_cons] at e1 e2
                  simp only [List.length_cons] at hs
                  omega
                rw [ih rest3 hlen3]
                obtain ⟨l3, ls3, hsp3⟩ := splitLines_uncons rest3
                have hnl_line : '\n' ∈
                    (c :: (t.takeWhile isKeyChar ++ ':' :: ' ' ::
                      r2.takeWhile (fun x => x != '\n'))) → False := by
                  intro hmem
                  rcases List.mem_cons.mp hmem with h | h
                  · rw [← h] at hkey
                    simp [isKeyChar] at hkey
                  · rcases List.mem_append.mp h with h | h
                    · have := htw _ h
                      simp [isKeyChar] at this
                    · rcases List.mem_cons.mp h with h | h
                      · exact absurd h (by decide)
                      · rcases List.mem_cons.mp h with h | h
                        · exact absurd h (by decide)
                        · have := mem_takeWhile_pred _ r2 _ h
                          simp at this
                have hsdecomp : c :: t =
                    (c :: (t.takeWhile isKeyChar ++ ':' :: ' ' ::
                      r2.takeWhile (fun x => x != '\n'))) ++ '\n' :: rest3 := by
                  conv_lhs => rw [hteq]
                  conv_lhs => rw [hr2eq]
                  simp [List.append_assoc]
                have hsplit2 : splitLines (c :: t) =
                    (c :: (t.takeWhile isKeyChar ++ ':' :: ' ' ::
                      r2.takeWhile (fun x => x != '\n'))) :: splitLines rest3 := by
                  rw [hsdecomp]
                  have := splitLines_append_first
                    (c :: (t.takeWhile isKeyChar ++ ':' :: ' ' ::
                      r2.takeWhile (fun x => x != '\n'))) ('\n' :: rest3)
                    [] (splitLines rest3) hnl_line (by simp [splitLines])
                  simpa using this
                rw [hsplit2]
                simp only [List.map_cons, List.flatten_cons]
                rw [specLineHeader_run c _ (r2.takeWhile (fun x => x != '\n')) hkey htw]
                simp
            · push_neg at hpat
              rw [headerScan_run_wild c t hkey hpat, hr]
              have hd1 : isKeyChar d = false := dropWhile_head_not isKeyChar t d rest1 hr
              have hlen1 : (d :: rest1).length ≤ n := by
                have h1 : (t.dropWhile isKeyChar).length ≤ t.length :=
                  (List.dropWhile_sublist _).length_le
                rw [hr] at h1
                simp only [List.length_cons] at h1 ⊢
                omega
              rw [ih (d :: rest1) hlen1]
              obtain ⟨l4, ls4, hsp4⟩ := splitLines_uncons (d :: rest1)
              have htw : ∀ x ∈ t.takeWhile isKeyChar, isKeyChar x = true :=
                fun x hx => mem_takeWhile_pred isKeyChar t x hx
              have hteq : t = t.takeWhile isKeyChar ++ d :: rest1 := by
                conv_lhs => rw [← List.takeWhile_append_dropWhile (p := isKeyChar) (l := t)]
                rw [hr]
              have hnl_run : '\n' ∈ (c :: t.takeWhile isKeyChar) → False := by
                intro hmem
                rcases List.mem_cons.mp hmem with h | h
                · rw [← h] at hkey
                  simp [isKeyChar] at hkey
                · have := htw _ h
                  simp [isKeyChar] at this
              have hsplit2 : splitLines (c :: t) =
                  ((c :: t.takeWhile isKeyChar) ++ l4) :: ls4 := by
                have hdecomp : c :: t = (c :: t.takeWhile isKeyChar) ++ d :: rest1 := by
                  conv_lhs => rw [hteq]
                  rw [List.cons_append]
                rw [hdecomp]
                exact splitLines_append_first _ _ l4 ls4 hnl_run hsp4
              rw [hsplit2, hsp4]
              simp only [List.map_cons, List.flatten_cons]
              have hshape := splitLines_head_shape d rest1 l4 ls4 hsp4
              have hl4 : l4 = [] ∨ ∃ e l2, l4 = e :: l2 ∧ isKeyChar e = false := by
                rcases hshape with ⟨_, h0⟩ | ⟨_, l2, h0⟩
                · left
                  exact h0
                · right
                  exact ⟨d, l2, h0, hd1⟩
              have hnot4 : ∀ l3, l4 ≠ ':' :: ' ' :: l3 := by
                intro l3 hcon
                rcases hshape with ⟨hdn, h0⟩ | ⟨hdn, l2, h0⟩
                · rw [h0] at hcon
                  cases hcon
                · rw [h0] at hcon
                  have hd' : d = ':' := (List.cons.inj hcon).1
                  have hl2 : l2 = ' ' :: l3 := (List.cons.inj hcon).2
                  cases rest1 with
                  | nil =>
                    have hq : splitLines (d :: ([] : List Char)) = [d] :: [] := by
                      simp [splitLines, hdn]
                    rw [hq] at hsp4
                    have : l4 = [d] := (List.cons.inj hsp4).1.symm
                    rw [h0, hl2] at this
                    cases (List.cons.inj this).2
                  | cons e rest2 =>
                    obtain ⟨l5, ls5, hsp5⟩ := splitLines_uncons (e :: rest2)
                    have hq : splitLines (d :: e :: rest2) = (d :: l5) :: ls5 :=
                      splitLines_cons_not_nl d (e :: rest2) l5 ls5 hdn hsp5
                    rw [hq] at hsp4
                    have hl45 : l4 = d :: l5 := (List.cons.inj hsp4).1.symm
                    rw [h0, hl2] at hl45
                    have hl5 : l5 = ' ' :: l3 := (List.cons.inj hl45).2.symm
                    rcases splitLines_head_shape e rest2 l5 ls5 hsp5 with
                      ⟨_, h5⟩ | ⟨_, l6, h5⟩
                    · rw [h5] at hl5
                      cases hl5
                    · rw [h5] at hl5
                      have he : e = ' ' := (List.cons.inj hl5).1
                      have : t.dropWhile isKeyChar = ':' :: ' ' :: rest2 := by
                        rw [hr, hd', he]
                      exact hpat rest2 this
              rw [List.cons_append,
                specLineHeader_wildcard c _ l4 hkey htw hl4 hnot4]
        · have hkey' : isKeyChar c = false := by
            simpa using hkey
          rw [headerScan_not_key c t hkey']
          by_cases hnl : c = '\n'
          · subst hnl
            have h2 : splitLines ('\n' :: t) = [] :: splitLines t := by
              simp [splitLines]
            rw [ih t hlt, h2]
            simp [specLineHeader]
          · obtain ⟨l, ls, hsplit⟩ := splitLines_uncons t
            have h2 : splitLines (c :: t) = (c :: l) :: ls := by
              simp only [splitLines, hnl, if_false]
              rw [hsplit]
            rw [ih t hlt, hsplit, h2]
            simp only [List.map_cons, List.flatten_cons]
            rw [specLineHeader_not_key c l hkey']
  exact main s.length s (Nat.le.refl)

/-- C4: the decoded header list has exactly one pair per header-block line
that carries a `<key>: <value>` match (key one or more ASCII
letters/hyphens, value the rest of the line), in order, duplicates
preserved, non-matching lines ignored; and decoding the spec's example
document yields exactly the two pairs `Content-Type: text/xml`, `Date:
<x>` in that order with body `<root/>`. -/
theorem C4_headers_per_line :
    (∀ s : List Char, headerScan s =
      ((splitLines s).map (fun l => (specLineHeader l).toList)).flatten) ∧
    (∀ hp : String, parse_headers hp =
      (((splitLines hp.data).map (fun l => (specLineHeader l).toList)).flatten).map
        (fun kv => (String.mk (rustTrim kv.1), String.mk (rustTrim kv.2)))) ∧
    decodePlayback specDoc =
      .ok ⟨"/pr/1980/1999/gbr.xml",
        [("Content-Type", "text/xml"), ("Date", "<x>")], "<root/>"⟩ := by
  refine ⟨headerScan_eq_perLine, ?_, ?_⟩
  · intro hp
    rw [parse_headers, headerScan_eq_perLine]
  · have h1 : markdownCaptures specDoc.data =
        some (("/pr/1980/1999/gbr.xml").data,
          ("Content-Type: text/xml\nDate: <x>").data, ("<root/>").data) := by decide
    simp only [decodePlayback, h1]
    simp +decide [parse_headers, headerScan, rustTrim, List.dropWhile, List.takeWhile,
      isKeyChar, isWs]

/-- C7: the recording connection handler panics on every invocation; the
dispatcher in Recording mode never writes response bytes. -/
theorem C7_record_mode_panics :
    (∀ path : String, handle_record path = ConnectionOutcome.panicked) ∧
    (∀ path : String, dispatch_connection (.recording path) = some .panicked) ∧
    (∀ (path bytes : String),
      (dispatch_connection (.recording path) == some (.wrote bytes)) = false) := by
  refine ⟨fun _ => rfl, fun _ => rfl, ?_⟩
  intro path bytes
  rw [beq_eq_false_iff_ne]
  simp [dispatch_connection, handle_record]

/-- C8: when `prepare_for_test` in Playback mode fails to load the fixture,
the returned state already carries the new `domain_name` while
`interaction_mode` still holds the previous value: the setup mutation is
not atomic on error. -/
theorem C8_prepare_not_atomic (fs : String → Option String)
    (server : ServirtiumServer) (script_path domain_name : String)
    (e : ServirtiumServerError)
    (hfail : load_playback_file fs script_path = .error e) :
    prepare_for_test fs server .playback script_path domain_name =
      ({ interaction_mode := server.interaction_mode,
         domain_name := some domain_name }, some e) := by
  simp [prepare_for_test, hfail]

/-- Witness for C8: an unreadable fixture file surfaces `IoError` while the
domain name is already replaced and the old Recording mode survives. -/
theorem C8_prepare_not_atomic_witness :
    prepare_for_test (fun _ => none)
      ⟨.recording "old", some "old.example.com"⟩ .playback "f.md" "new.example.com" =
      ({ interaction_mode := .recording "old",
         domain_name := some "new.example.com" }, some .ioError) :=
  C8_prepare_not_atomic (fun _ => none) ⟨.recording "old", some "old.example.com"⟩
    "f.md" "new.example.com" .ioError rfl

theorem isPrefixOf_head_mismatch (x : Char) (xs : List Char) (y : Char) (ys : List Char)
    (h : (x == y) = false) : (x :: xs).isPrefixOf (y :: ys) = false := by
  simp only [List.isPrefixOf, h, Bool.false_and]

theorem lazyUntil_here {α : Type u} (lit b : List Char) (k : List Char → Option α)
    (r : α) (hk : k b = some r) : lazyUntil lit k (lit ++ b) = some r := by
  cases hl : lit ++ b with
  | nil =>
    have h1 : lit = [] := by
      cases lit with
      | nil => rfl
      | cons x xs => simp at hl
    subst h1
    have h2 : b = [] := by simpa using hl
    subst h2
    simpa [lazyUntil, List.isPrefixOf] using hk
  | cons c t =>
    simp only [lazyUntil]
    rw [← hl, isPrefixOf_self_append, if_pos rfl, List.drop_left, hk]
    rfl

theorem lazyUntil_skip {α : Type u} (lit : List Char) (k : List Char → Option α)
    (c : Char) (t : List Char) (r : α)
    (hnp : lit.isPrefixOf (c :: t) = false) (hrec : lazyUntil lit k t = some r) :
    lazyUntil lit k (c :: t) = some r := by
  simp only [lazyUntil]
  rw [hnp]
  simp only [Bool.false_eq_true, if_false, hrec]
  rfl

theorem greedyStar_run {α : Type u} (p : Char → Bool) (k : List Char → Option α) :
    ∀ (w rest : List Char) (r : α), (∀ c ∈ w, p c = true) →
      (rest = [] ∨ ∃ d t, rest = d :: t ∧ p d = false) →
      k rest = some r → greedyStar p k (w ++ rest) = some r := by
  intro w
  induction w with
  | nil =>
    intro rest r _ hrest hk
    rcases hrest with hrest | ⟨d, t, hrest, hd⟩
    · subst hrest
      simpa [greedyStar] using hk
    · subst hrest
      simp only [List.nil_append, greedyStar]
      rw [hd]
      simpa using hk
  | cons c w' ih =>
    intro rest r hw hrest hk
    have hc : p c = true := hw c (List.mem_cons_self c w')
    have hw' : ∀ x ∈ w', p x = true := fun x hx => hw x (List.mem_cons_of_mem c hx)
    have hrec := ih rest r hw' hrest hk
    simp only [List.cons_append, greedyStar]
    rw [hc]
    simp only [if_true]
    have hrec2 : greedyStar p k (w'.append rest) = some r := hrec
    rw [hrec2]
    rfl

theorem greedyStar_stop {α : Type u} (p : Char → Bool) (k : List Char → Option α)
    (c : Char) (t : List Char) (hc : p c = false) :
    greedyStar p k (c :: t) = k (c :: t) := by
  simp only [greedyStar]
  rw [hc]
  simp

theorem greedyDotLit_dead {α : Type u} (lit : List Char) :
    ∀ (s : List Char) (k : List Char → List Char → Option α),
      (∀ n, lit.isPrefixOf (s.drop n) = false) →
      greedyDotLit lit k s = none := by
  intro s
  induction s with
  | nil =>
    intro k hno
    have h0 := hno 0
    simp only [List.drop] at h0
    simp [greedyDotLit, h0]
  | cons c t ih =>
    intro k hno
    have h0 := hno 0
    simp only [List.drop] at h0
    have hrec := ih (fun cap rem => k (c :: cap) rem) (fun n => by
      have := hno (n + 1)
      simpa [List.drop_succ_cons] using this)
    simp only [greedyDotLit]
    rw [hrec, h0]
    rfl

theorem greedyDotLit_last {α : Type u} (lit : List Char) :
    ∀ (a0 b : List Char) (k : List Char → List Char → Option α) (r : α),
      k (a0 ++ lit) b = some r →
      (∀ n, lit.isPrefixOf ((a0 ++ lit ++ b).drop (n + a0.length + 1)) = false) →
      greedyDotLit lit k (a0 ++ lit ++ b) = some r := by
  intro a0
  induction a0 with
  | nil =>
    intro b k r hk hno
    simp only [List.nil_append]
    cases hl : lit ++ b with
    | nil =>
      have h1 : lit = [] := by
        cases lit with
        | nil => rfl
        | cons x xs => simp at hl
      subst h1
      have h2 : b = [] := by simpa using hl
      subst h2
      simpa [greedyDotLit, List.isPrefixOf] using hk
    | cons c t =>
      simp only [greedyDotLit]
      have hdead : greedyDotLit lit (fun cap rem => k (c :: cap) rem) t = none := by
        apply greedyDotLit_dead
        intro n
        have := hno n
        simp only [List.nil_append, List.length_nil] at this
        rw [hl] at this
        simpa [List.drop_succ_cons, Nat.add_comm] using this
      rw [hdead, ← hl, isPrefixOf_self_append, if_pos rfl, List.drop_left]
      have hk2 : k lit b = some r := hk
      rw [hk2]
      rfl
  | cons c a0' ih =>
    intro b k r hk hno
    simp only [List.cons_append, greedyDotLit]
    have hrec : greedyDotLit lit (fun cap rem => k (c :: cap) rem)
        (a0' ++ lit ++ b) = some r := by
      apply ih
      · exact hk
      · intro n
        have h1 := hno n
        simp only [List.cons_append, List.length_cons] at h1
        have harith : n + (a0'.length + 1) + 1 = (n + a0'.length + 1) + 1 := by omega
        rw [harith, List.drop_succ_cons] at h1
        exact h1
    have hrec2 : greedyDotLit lit (fun cap rem => k (c :: cap) rem)
        ((a0'.append lit).append b) = some r := hrec
    rw [hrec2]
    rfl

theorem ws_cases (c : Char) (h : isWs c = true) :
    c = ' ' ∨ c = '\t' ∨ c = '\r' ∨ c = '\n' := by
  have h2 : ((c = ' ' ∨ c = '\t') ∨ c = '\r') ∨ c = '\n' := by
    simpa [isWs, Char.isWhitespace] using h
  tauto

theorem ws_not_backtick (c : Char) (h : isWs c = true) : (c == '`') = false := by
  rcases ws_cases c h with h1 | h1 | h1 | h1 <;> (subst h1; decide)

theorem isKeyChar_not_ws (c : Char) (h : isKeyChar c = true) : isWs c = false := by
  cases hw : isWs c
  · rfl
  · exfalso
    rcases ws_cases c hw with h1 | h1 | h1 | h1 <;>
      (subst h1; exact absurd h (by decide))

theorem fence_head : fenceLit = '`' :: ('`' :: '`' :: []) := by
  decide

theorem greedyStar_dead_no_backtick {α : Type u} (chk : List Char → Option α)
    (hnil : chk [] = none)
    (hcons : ∀ (c : Char) (s3 : List Char), (c == '`') = false → chk (c :: s3) = none) :
    ∀ (h : List Char) (rest : List Char),
      (∀ c ∈ h, (c == '`') = false) →
      (∀ h0 cl, h = h0 ++ [cl] → isWs cl = false) →
      h ≠ [] →
      greedyStar isWs chk (h ++ rest) = none := by
  intro h
  induction h with
  | nil =>
    intro rest _ _ hne
    exact absurd rfl hne
  | cons c h' ih =>
    intro rest hbt hlast _
    simp only [List.cons_append, greedyStar]
    cases hw : isWs c
    · simp only [Bool.false_eq_true, if_false]
      exact hcons c _ (hbt c (List.mem_cons_self c h'))
    · simp only [if_true]
      have hne' : h' ≠ [] := by
        intro he
        subst he
        have := hlast [] c rfl
        rw [hw] at this
        cases this
      have hrec := ih rest
        (fun x hx => hbt x (List.mem_cons_of_mem c hx))
        (fun h0 cl hcl => hlast (c :: h0) cl (by rw [hcl]; rfl))
        hne'
      have hrec2 : greedyStar isWs chk (h'.append rest) = none := hrec
      rw [hrec2]
      have hc2 : chk (c :: h'.append rest) = none :=
        hcons c _ (ws_not_backtick c hw)
      rw [hc2]
      rfl

theorem beq_false_symm (a b : Char) (h : (a == b) = false) : (b == a) = false :=
  beq_eq_false_iff_ne.mpr (Ne.symm (beq_eq_false_iff_ne.mp h))

theorem last_unique (l a b : List Char) (x y : Char)
    (h1 : l = a ++ [x]) (h2 : l = b ++ [y]) : x = y := by
  have h3 : a ++ [x] = b ++ [y] := by rw [← h1, ← h2]
  have hlen : a.length = b.length := by
    have := congrArg List.length h3
    simp only [List.length_append, List.length_cons, List.length_nil] at this
    omega
  obtain ⟨-, h4⟩ := List.append_inj h3 hlen
  exact (List.cons.inj h4).1

theorem greedyStar_dead_wrap {α : Type u} (chk : List Char → Option α)
    (hnil : chk [] = none)
    (hcons : ∀ (c : Char) (s3 : List Char), (c == '`') = false → chk (c :: s3) = none)
    (h rest s : List Char) (hs : s = h ++ rest)
    (hbt : ∀ c ∈ h, (c == '`') = false)
    (hlast : ∀ h0 cl, h = h0 ++ [cl] → isWs cl = false)
    (hne : h ≠ []) :
    greedyStar isWs chk s = none := by
  rw [hs]
  exact greedyStar_dead_no_backtick chk hnil hcons h rest hbt hlast hne

theorem lazyCapThen_first {α : Type u} :
    ∀ (h : List Char) (w b : List Char) (k : List Char → List Char → Option α) (r : α),
      (h = [] ∨ ((∀ c ∈ h, (c == '`') = false) ∧
        ∃ h0 cl, h = h0 ++ [cl] ∧ isWs cl = false)) →
      (∀ c ∈ w, isWs c = true) →
      k h b = some r →
      lazyCapThen fenceLit k (h ++ w ++ fenceLit ++ b) = some r := by
  intro h
  induction h with
  | nil =>
    intro w b k r _ hw hk
    simp only [List.nil_append]
    cases hs : w ++ fenceLit ++ b with
    | nil =>
      exfalso
      simp only [List.append_eq_nil] at hs
      exact absurd hs.1.2 (by decide)
    | cons c t =>
      simp only [lazyCapThen]
      have hstar : greedyStar isWs
          (fun s2 => if fenceLit.isPrefixOf s2 = true then
            k [] (s2.drop fenceLit.length) else none)
          (c :: t) = some r := by
        rw [← hs, List.append_assoc]
        apply greedyStar_run isWs _ w (fenceLit ++ b) r hw
        · right
          refine ⟨'`', ('`' :: '`' :: []) ++ b, ?_, by decide⟩
          rw [fence_head]
          rfl
        · show (if fenceLit.isPrefixOf (fenceLit ++ b) = true then
            k [] (List.drop fenceLit.length (fenceLit ++ b)) else none) = some r
          rw [isPrefixOf_self_append, if_pos rfl, List.drop_left, hk]
      rw [hstar]
      rfl
  | cons c h' ih =>
    intro w b k r hh hw hk
    rcases hh with hh | ⟨hbt, h0, cl, hcl, hclws⟩
    · cases hh
    · have harg : (c :: h') ++ w ++ fenceLit ++ b =
          c :: (h' ++ w ++ fenceLit ++ b) := by
        simp only [List.cons_append]
      rw [harg]
      simp only [lazyCapThen]
      have hnil : (fun s2 => if fenceLit.isPrefixOf s2 = true then
          k [] (s2.drop fenceLit.length) else none) ([] : List Char) = none := by
        simp only [show fenceLit.isPrefixOf ([] : List Char) = false from by decide,
          Bool.false_eq_true, if_false]
      have hcons : ∀ (c2 : Char) (s3 : List Char), (c2 == '`') = false →
          (fun s2 => if fenceLit.isPrefixOf s2 = true then
            k [] (s2.drop fenceLit.length) else none) (c2 :: s3) = none := by
        intro c2 s3 hc2
        have hpf : fenceLit.isPrefixOf (c2 :: s3) = false := by
          rw [fence_head]
          exact isPrefixOf_head_mismatch _ _ _ _ (beq_false_symm c2 '`' hc2)
        simp only [hpf, Bool.false_eq_true, if_false]
      have hlastcond : ∀ g0 gl, c :: h' = g0 ++ [gl] → isWs gl = false := by
        intro g0 gl hg
        have he : cl = gl := last_unique (c :: h') h0 g0 cl gl hcl hg
        rw [← he]
        exact hclws
      have hdead : greedyStar isWs
          (fun s2 => if fenceLit.isPrefixOf s2 = true then
            k [] (s2.drop fenceLit.length) else none)
          (c :: (h' ++ w ++ fenceLit ++ b)) = none := by
        apply greedyStar_dead_wrap _ hnil hcons (c :: h') (w ++ fenceLit ++ b)
        · simp [List.cons_append, List.append_assoc]
        · exact hbt
        · exact hlastcond
        · simp
      rw [hdead]
      have hh' : h' = [] ∨ ((∀ c2 ∈ h', (c2 == '`') = false) ∧
          ∃ g0 gl, h' = g0 ++ [gl] ∧ isWs gl = false) := by
        cases hh0 : h0 with
        | nil =>
          left
          rw [hh0] at hcl
          simpa using (List.cons.inj hcl).2
        | cons x g0' =>
          right
          rw [hh0] at hcl
          have hh'eq : h' = g0' ++ [cl] := by
            have := (List.cons.inj (by simpa [List.cons_append] using hcl :
              c :: h' = x :: (g0' ++ [cl]))).2
            exact this
          exact ⟨fun c2 hc2 => hbt c2 (List.mem_cons_of_mem c hc2),
            g0', cl, hh'eq, hclws⟩
      have hrec := ih w b (fun cap rem => k (c :: cap) rem) r hh' hw hk
      rw [hrec]
      rfl

theorem takeWhile_all (p : Char → Bool) :
    ∀ (l : List Char), (∀ c ∈ l, p c = true) → l.takeWhile p = l := by
  intro l
  induction l with
  | nil => intro _; rfl
  | cons c t ih =>
    intro h
    rw [List.takeWhile_cons_of_pos (h c (List.mem_cons_self c t))]
    rw [ih (fun x hx => h x (List.mem_cons_of_mem c hx))]

theorem dropWhile_fix_cases (p : Char → Bool) (l : List Char) (h : l.dropWhile p = l) :
    l = [] ∨ ∃ c t, l = c :: t ∧ p c = false := by
  cases l with
  | nil => left; rfl
  | cons c t =>
    by_cases hc : p c
    · exfalso
      rw [List.dropWhile_cons_of_pos hc] at h
      have hlen := congrArg List.length h
      have hle : (t.dropWhile p).length ≤ t.length :=
        (List.dropWhile_sublist _).length_le
      simp only [List.length_cons] at hlen
      omega
    · right
      exact ⟨c, t, rfl, by simpa using hc⟩

theorem rev_fix_last (l : List Char) (hne : l ≠ [])
    (h : l.reverse.dropWhile isWs = l.reverse) :
    ∃ t c, l = t ++ [c] ∧ isWs c = false := by
  rcases dropWhile_fix_cases isWs l.reverse h with h0 | ⟨c, t, hrev, hc⟩
  · exact absurd (by simpa using congrArg List.reverse h0) hne
  · refine ⟨t.reverse, c, ?_, hc⟩
    have := congrArg List.reverse hrev
    simpa using this

theorem rustTrim_fix (l : List Char) (h1 : l.dropWhile isWs = l)
    (h2 : l.reverse.dropWhile isWs = l.reverse) : rustTrim l = l := by
  simp [rustTrim, h1, h2]

theorem str_data_append (a b : String) : (a ++ b).data = a.data ++ b.data :=
  rfl

theorem headerScan_line_last (K V : List Char)
    (hK : K ≠ []) (hKc : ∀ c ∈ K, isKeyChar c = true)
    (hV : ∀ c ∈ V, (c != '\n') = true) :
    headerScan (K ++ ':' :: ' ' :: V) = [(K, V)] := by
  cases K with
  | nil => exact absurd rfl hK
  | cons k0 K' =>
    have hk0 : isKeyChar k0 = true := hKc k0 (List.mem_cons_self k0 K')
    have hK' : ∀ c ∈ K', isKeyChar c = true :=
      fun c hc => hKc c (List.mem_cons_of_mem k0 hc)
    obtain ⟨htw, hdw⟩ := takeWhile_append_run isKeyChar K' (':' :: ' ' :: V) hK'
      (Or.inr ⟨':', ' ' :: V, rfl, by decide⟩)
    rw [List.cons_append, headerScan_run_match k0 (K' ++ ':' :: ' ' :: V) V hk0 hdw]
    rw [takeWhile_all _ V hV, List.drop_length, headerScan_nil, htw]

theorem headerScan_line_mid (K V R : List Char)
    (hK : K ≠ []) (hKc : ∀ c ∈ K, isKeyChar c = true)
    (hV : ∀ c ∈ V, (c != '\n') = true) :
    headerScan (K ++ ':' :: ' ' :: (V ++ '\n' :: R)) = (K, V) :: headerScan R := by
  cases K with
  | nil => exact absurd rfl hK
  | cons k0 K' =>
    have hk0 : isKeyChar k0 = true := hKc k0 (List.mem_cons_self k0 K')
    have hK' : ∀ c ∈ K', isKeyChar c = true :=
      fun c hc => hKc c (List.mem_cons_of_mem k0 hc)
    obtain ⟨htw, hdw⟩ := takeWhile_append_run isKeyChar K'
      (':' :: ' ' :: (V ++ '\n' :: R)) hK'
      (Or.inr ⟨':', ' ' :: (V ++ '\n' :: R), rfl, by decide⟩)
    rw [List.cons_append,
      headerScan_run_match k0 (K' ++ ':' :: ' ' :: (V ++ '\n' :: R)) (V ++ '\n' :: R)
        hk0 hdw]
    obtain ⟨htwV, hdwV⟩ := takeWhile_append_run (fun d => d != '\n') V ('\n' :: R) hV
      (Or.inr ⟨'\n', R, rfl, by decide⟩)
    rw [htwV, htw]
    have hdrop : (V ++ '\n' :: R).drop V.length = '\n' :: R := List.drop_left V _
    rw [hdrop, headerScan_not_key '\n' R (by decide)]

theorem encodeHeaderLines_data :
    ∀ (hs : List (String × String)), (encodeHeaderLines hs).data =
      (hs.map (fun kv => kv.1.data ++ ':' :: ' ' :: (kv.2.data ++ ['\n']))).flatten := by
  intro hs
  induction hs with
  | nil => rfl
  | cons kv tl ih =>
    simp only [encodeHeaderLines, List.map_cons, String.join_cons, List.flatten_cons]
    rw [← ih]
    simp only [encodeHeaderLines]
    rw [str_data_append]
    congr 1
    rw [str_data_append, str_data_append]
    simp [List.append_assoc]

theorem encodeHeaderLines_cons (kv : String × String) (tl : List (String × String)) :
    (encodeHeaderLines (kv :: tl)).data =
      (kv.1 ++ ": " ++ kv.2 ++ "\n").data ++ (encodeHeaderLines tl).data := by
  simp only [encodeHeaderLines, List.map_cons, String.join_cons, str_data_append]

theorem encodeHeaderLines_scan :
    ∀ (hs : List (String × String)),
      (∀ kv ∈ hs, kv.1.data ≠ [] ∧ (∀ c ∈ kv.1.data, isKeyChar c = true) ∧
        kv.2.data ≠ [] ∧ (∀ c ∈ kv.2.data, c ≠ '\n' ∧ c ≠ '`' ∧ c ≠ '.') ∧
        kv.2.data.dropWhile isWs = kv.2.data ∧
        kv.2.data.reverse.dropWhile isWs = kv.2.data.reverse) →
      hs ≠ [] →
      ∃ HL, (encodeHeaderLines hs).data = HL ++ ['\n'] ∧
        (∀ c ∈ HL, (c == '`') = false ∧ c ≠ '.') ∧
        (∃ h0 cl, HL = h0 ++ [cl] ∧ isWs cl = false) ∧
        (∃ c0 t0, HL = c0 :: t0 ∧ isKeyChar c0 = true) ∧
        headerScan HL = hs.map (fun kv => (kv.1.data, kv.2.data)) := by
  intro hs
  induction hs with
  | nil => intro _ hne; exact absurd rfl hne
  | cons kv tl ih =>
    intro hWF _
    obtain ⟨hKne, hKc, hVne, hVc, hVd1, hVd2⟩ := hWF kv (List.mem_cons_self kv tl)
    have hVnl : ∀ c ∈ kv.2.data, (c != '\n') = true := by
      intro c hc
      have := (hVc c hc).1
      simpa [bne] using this
    have hKchars : ∀ c ∈ kv.1.data, (c == '`') = false ∧ c ≠ '.' := by
      intro c hc
      have hk := hKc c hc
      constructor
      · rw [beq_eq_false_iff_ne]
        intro h1
        subst h1
        exact absurd hk (by decide)
      · intro h1
        subst h1
        exact absurd hk (by decide)
    have hVchars : ∀ c ∈ kv.2.data, (c == '`') = false ∧ c ≠ '.' := by
      intro c hc
      exact ⟨by rw [beq_eq_false_iff_ne]; exact (hVc c hc).2.1, (hVc c hc).2.2⟩
    obtain ⟨vt, vc, hvsplit, hvcws⟩ := rev_fix_last kv.2.data hVne hVd2
    obtain ⟨k0, K', hKeq⟩ : ∃ k0 K', kv.1.data = k0 :: K' := by
      cases hKd : kv.1.data with
      | nil => exact absurd hKd hKne
      | cons a b => exact ⟨a, b, rfl⟩
    have hk0 : isKeyChar k0 = true := hKc k0 (by rw [hKeq]; exact List.mem_cons_self k0 K')
    cases tl with
    | nil =>
      refine ⟨kv.1.data ++ ':' :: ' ' :: kv.2.data, ?_, ?_, ?_, ?_, ?_⟩
      · rw [encodeHeaderLines_data]
        simp [List.append_assoc]
      · intro c hc
        rcases List.mem_append.mp hc with hc | hc
        · exact hKchars c hc
        · rcases List.mem_cons.mp hc with hc | hc
          · subst hc; exact ⟨by decide, by decide⟩
          · rcases List.mem_cons.mp hc with hc | hc
            · subst hc; exact ⟨by decide, by decide⟩
            · exact hVchars c hc
      · refine ⟨kv.1.data ++ ':' :: ' ' :: vt, vc, ?_, hvcws⟩
        rw [hvsplit]
        simp [List.append_assoc]
      · refine ⟨k0, K' ++ ':' :: ' ' :: kv.2.data, ?_, hk0⟩
        rw [hKeq]
        rfl
      · rw [headerScan_line_last kv.1.data kv.2.data hKne hKc hVnl]
        simp
    | cons kv2 tl2 =>
      have hWFtl : ∀ kv3 ∈ kv2 :: tl2, kv3.1.data ≠ [] ∧
          (∀ c ∈ kv3.1.data, isKeyChar c = true) ∧
          kv3.2.data ≠ [] ∧ (∀ c ∈ kv3.2.data, c ≠ '\n' ∧ c ≠ '`' ∧ c ≠ '.') ∧
          kv3.2.data.dropWhile isWs = kv3.2.data ∧
          kv3.2.data.reverse.dropWhile isWs = kv3.2.data.reverse :=
        fun kv3 h3 => hWF kv3 (List.mem_cons_of_mem kv h3)
      obtain ⟨HLtl, hdtl, hctl, ⟨h0tl, cltl, hsptl, hwstl⟩, _, hscantl⟩ :=
        ih hWFtl (by simp)
      refine ⟨kv.1.data ++ ':' :: ' ' :: (kv.2.data ++ '\n' :: HLtl), ?_, ?_, ?_, ?_, ?_⟩
      · rw [encodeHeaderLines_cons, hdtl]
        rw [str_data_append, str_data_append, str_data_append]
        simp [List.append_assoc]
      · intro c hc
        rcases List.mem_append.mp hc with hc | hc
        · exact hKchars c hc
        · rcases List.mem_cons.mp hc with hc | hc
          · subst hc; exact ⟨by decide, by decide⟩
          · rcases List.mem_cons.mp hc with hc | hc
            · subst hc; exact ⟨by decide, by decide⟩
            · rcases List.mem_append.mp hc with hc | hc
              · exact hVchars c hc
              · rcases List.mem_cons.mp hc with hc | hc
                · subst hc; exact ⟨by decide, by decide⟩
                · exact hctl c hc
      · refine ⟨kv.1.data ++ ':' :: ' ' :: (kv.2.data ++ '\n' :: h0tl), cltl, ?_, hwstl⟩
        rw [hsptl]
        simp [List.append_assoc]
      · refine ⟨k0, K' ++ ':' :: ' ' :: (kv.2.data ++ '\n' :: HLtl), ?_, hk0⟩
        rw [hKeq]
        rfl
      · rw [headerScan_line_mid kv.1.data kv.2.data HLtl hKne hKc hVnl, hscantl]
        simp

theorem drop_append_add (a b : List Char) (m : Nat) :
    (a ++ b).drop (a.length + m) = b.drop m := by
  induction a with
  | nil => simp
  | cons c t ih =>
    simp only [List.cons_append, List.length_cons]
    rw [show t.length + 1 + m = (t.length + m) + 1 from by omega, List.drop_succ_cons, ih]

theorem nodot_cons (x : Char) (a : List Char) (hx : x ≠ '.')
    (ha : ∀ c ∈ a, c ≠ '.') : ∀ c ∈ x :: a, c ≠ '.' := by
  intro c hc
  rcases List.mem_cons.mp hc with h | h
  · subst h; exact hx
  · exact ha c h

theorem nodot_app (a b : List Char) (ha : ∀ c ∈ a, c ≠ '.')
    (hb : ∀ c ∈ b, c ≠ '.') : ∀ c ∈ a ++ b, c ≠ '.' := by
  intro c hc
  rcases List.mem_append.mp hc with h | h
  · exact ha c h
  · exact hb c h

theorem no_dot_no_xml (l : List Char) (h : ∀ c ∈ l, c ≠ '.') (n : Nat) :
    (".xml".data).isPrefixOf (l.drop n) = false := by
  cases hb : (".xml".data).isPrefixOf (l.drop n) with
  | false => rfl
  | true =>
    exfalso
    have hext := isPrefixOf_extract (".xml".data) (l.drop n) hb
    have hdot : '.' ∈ l.drop n := by
      rw [hext]
      exact List.mem_append.mpr (Or.inl (by decide))
    exact h '.' (List.drop_subset n l hdot) rfl

theorem no_late_xml (U stem REST : List Char)
    (hU2 : U = stem ++ ".xml".data)
    (hR : ∀ c ∈ REST, c ≠ '.') :
    ∀ n, (".xml".data).isPrefixOf ((U ++ REST).drop (n + stem.length + 1)) = false := by
  intro n
  have hxml : (".xml".data) = '.' :: "xml".data := by decide
  have hsplit : U ++ REST = (stem ++ ['.']) ++ ("xml".data ++ REST) := by
    rw [hU2, hxml]
    simp [List.append_assoc]
  have hlen : n + stem.length + 1 = (stem ++ ['.']).length + n := by
    simp only [List.length_append, List.length_cons, List.length_nil]
    omega
  rw [hsplit, hlen, drop_append_add]
  exact no_dot_no_xml _ (nodot_app _ _ (by decide) hR) n

theorem dropWhile_all_false (p : Char → Bool) (l : List Char)
    (h : ∀ c ∈ l, p c = false) : l.dropWhile p = l := by
  cases l with
  | nil => rfl
  | cons c t =>
    have h1 := h c (List.mem_cons_self c t)
    rw [List.dropWhile_cons_of_neg (by simp [h1])]

theorem list_map_fix {β : Type u} (f : β → β) :
    ∀ (l : List β), (∀ x ∈ l, f x = x) → l.map f = l := by
  intro l
  induction l with
  | nil => intro _; rfl
  | cons a t ih =>
    intro h
    rw [List.map_cons, h a (List.mem_cons_self a t),
      ih (fun x hx => h x (List.mem_cons_of_mem a hx))]

theorem decodePlayback_of_captures (t : String) (u hp b : List Char)
    (h : markdownCaptures t.data = some (u, hp, b)) :
    decodePlayback t = .ok { uri := String.mk u
                             headers := parse_headers (String.mk hp)
                             response_body := String.mk b } := by
  unfold decodePlayback
  rw [h]

theorem lazyUntil_nl2 {α : Type u} (lit : List Char) (k : List Char → Option α)
    (r : α) (b : List Char) (c0 : Char) (t0 : List Char)
    (hl : lit = c0 :: t0) (hc0 : (c0 == '\n') = false)
    (hk : k b = some r) :
    lazyUntil lit k ('\n' :: '\n' :: (lit ++ b)) = some r := by
  have hm : ∀ t, lit.isPrefixOf ('\n' :: t) = false := by
    intro t
    rw [hl]
    exact isPrefixOf_head_mismatch c0 t0 '\n' t hc0
  exact lazyUntil_skip lit k '\n' ('\n' :: (lit ++ b)) r (hm _)
    (lazyUntil_skip lit k '\n' (lit ++ b) r (hm _)
      (lazyUntil_here lit b k r hk))

theorem section_capture {α : Type u} (CAP wtail W : List Char)
    (k : List Char → List Char → Option α) (r : α)
    (hcap : CAP = [] ∨ ((∃ c0 t0, CAP = c0 :: t0 ∧ isWs c0 = false) ∧
      (∀ c ∈ CAP, (c == '`') = false) ∧ ∃ h0 cl, CAP = h0 ++ [cl] ∧ isWs cl = false))
    (hwt : ∀ c ∈ wtail, isWs c = true)
    (hk : k CAP W = some r) :
    greedyStar isWs (lazyCapThen fenceLit k)
      ('\n' :: (CAP ++ (wtail ++ (fenceLit ++ W)))) = some r := by
  rcases hcap with hnil | ⟨⟨c0, t0, hct, hc0⟩, hbt, hend⟩
  · subst hnil
    have hrun : greedyStar isWs (lazyCapThen fenceLit k)
        (('\n' :: wtail) ++ (fenceLit ++ W)) = some r := by
      apply greedyStar_run isWs (lazyCapThen fenceLit k) ('\n' :: wtail) (fenceLit ++ W) r
      · intro x hx
        rcases List.mem_cons.mp hx with h1 | h1
        · subst h1; decide
        · exact hwt x h1
      · right
        refine ⟨'`', ('`' :: '`' :: []) ++ W, ?_, by decide⟩
        rw [fence_head]
        rfl
      · exact lazyCapThen_first ([] : List Char) [] W k r (Or.inl rfl)
          (fun x hx => absurd hx (List.not_mem_nil x)) hk
    exact hrun
  · have hrun : greedyStar isWs (lazyCapThen fenceLit k)
        (['\n'] ++ (CAP ++ (wtail ++ (fenceLit ++ W)))) = some r := by
      apply greedyStar_run isWs (lazyCapThen fenceLit k) ['\n']
        (CAP ++ (wtail ++ (fenceLit ++ W))) r
      · intro x hx
        rcases List.mem_cons.mp hx with h1 | h1
        · subst h1; decide
        · exact absurd h1 (List.not_mem_nil x)
      · right
        refine ⟨c0, t0 ++ (wtail ++ (fenceLit ++ W)), ?_, hc0⟩
        rw [hct, List.cons_append]
      · have heq : CAP ++ (wtail ++ (fenceLit ++ W)) = CAP ++ wtail ++ fenceLit ++ W := by
          simp [List.append_assoc]
        rw [heq]
        exact lazyCapThen_first CAP wtail W k r (Or.inr ⟨hbt, hend⟩) hwt hk
    exact hrun

theorem section_capture_nil {α : Type u} (W : List Char)
    (k : List Char → List Char → Option α) (r : α)
    (hk : k [] W = some r) :
    greedyStar isWs (lazyCapThen fenceLit k) ('\n' :: (fenceLit ++ W)) = some r := by
  have h := section_capture [] [] W k r (Or.inl rfl)
    (fun x hx => absurd hx (List.not_mem_nil x)) hk
  exact h

theorem star_dotlit_uri {α : Type u} (U u' stem REST : List Char)
    (k : List Char → List Char → Option α) (r : α)
    (hU1 : U = '/' :: u') (hU2 : U = stem ++ ".xml".data)
    (hk : k U REST = some r)
    (hno : ∀ n, (".xml".data).isPrefixOf ((U ++ REST).drop (n + stem.length + 1)) = false) :
    greedyStar (fun c => c != '/') (greedyDotLit ".xml".data k) (U ++ REST) = some r := by
  rw [hU1, List.cons_append]
  rw [greedyStar_stop _ _ '/' _ (by decide)]
  rw [← List.cons_append, ← hU1, hU2]
  apply greedyDotLit_last
  · rw [← hU2]
    exact hk
  · intro n
    have h2 := hno n
    rw [hU2] at h2
    exact h2

/-- Claim C6 (counterexample): the round trip is not the identity for every
record.  The record with uri `nope` encodes to a document whose heading
carries no `.xml`-terminated path, so `MARKDOWN_REGEX` fails to match and
`decode` rejects the encoded text instead of returning the record. -/
theorem C6_counterexample :
    decodePlayback (encode { uri := "nope"
                             headers := []
                             response_body := "b" }) ≠
      .ok { uri := "nope"
            headers := []
            response_body := "b" } := by
  decide

/-- Claim C6 (amended): encoding then decoding returns the original record
for records that are well formed for the fixture grammar: the uri starts
with `/` and ends in `.xml`; every header key is a nonempty string of
`[a-zA-Z\-]` characters; every header value is nonempty, contains no
newline, backtick or `.`, and carries no leading or trailing whitespace;
the body contains no backtick and no `.` and carries no leading or
trailing whitespace. -/
theorem C6_corrected_roundtrip (pd : PlaybackData)
    (huri1 : ∃ u, pd.uri.data = '/' :: u)
    (huri2 : ∃ stem, pd.uri.data = stem ++ ".xml".data)
    (hheads : ∀ kv ∈ pd.headers, kv.1.data ≠ [] ∧
      (∀ c ∈ kv.1.data, isKeyChar c = true) ∧
      kv.2.data ≠ [] ∧ (∀ c ∈ kv.2.data, c ≠ '\n' ∧ c ≠ '`' ∧ c ≠ '.') ∧
      kv.2.data.dropWhile isWs = kv.2.data ∧
      kv.2.data.reverse.dropWhile isWs = kv.2.data.reverse)
    (hbody1 : ∀ c ∈ pd.response_body.data, c ≠ '`' ∧ c ≠ '.')
    (hbody2 : pd.response_body.data.dropWhile isWs = pd.response_body.data)
    (hbody3 : pd.response_body.data.reverse.dropWhile isWs =
      pd.response_body.data.reverse) :
    decodePlayback (encode pd) = .ok pd := by
  obtain ⟨u', hu'⟩ := huri1
  obtain ⟨stem, hstem⟩ := huri2
  have hdata : (encode pd).data =
      "## ".data ++ (pd.uri.data ++ ('\n' :: '\n' :: (anchorHeaders ++
        ('\n' :: '\n' :: (fenceLit ++ ('\n' :: ((encodeHeaderLines pd.headers).data ++
          (fenceLit ++ ('\n' :: '\n' :: (anchorBody ++ ('\n' :: '\n' :: (fenceLit ++
            ('\n' :: (pd.response_body.data ++ ('\n' :: (fenceLit ++
              ['\n'])))))))))))))))) := by
    simp only [encode, str_data_append, anchorHeaders, anchorBody, fenceLit,
      List.append_assoc, List.cons_append, List.nil_append]
  have hBd : ∀ c ∈ pd.response_body.data, c ≠ '.' := fun c hc => (hbody1 c hc).2
  have hBcap : pd.response_body.data = [] ∨
      ((∃ c0 t0, pd.response_body.data = c0 :: t0 ∧ isWs c0 = false) ∧
        (∀ c ∈ pd.response_body.data, (c == '`') = false) ∧
        ∃ h0 cl, pd.response_body.data = h0 ++ [cl] ∧ isWs cl = false) := by
    rcases dropWhile_fix_cases isWs pd.response_body.data hbody2 with hB0 | ⟨cb, tb, hBeq, hcb⟩
    · exact Or.inl hB0
    · right
      refine ⟨⟨cb, tb, hBeq, hcb⟩, ?_, ?_⟩
      · intro c hc
        rw [beq_eq_false_iff_ne]
        exact (hbody1 c hc).1
      · obtain ⟨tB, cB, hsp, hws⟩ := rev_fix_last pd.response_body.data
          (by rw [hBeq]; simp) hbody3
        exact ⟨tB, cB, hsp, hws⟩
  have hnlws : ∀ c ∈ ['\n'], isWs c = true := by
    intro x hx
    rcases List.mem_cons.mp hx with h1 | h1
    · subst h1; decide
    · exact absurd h1 (List.not_mem_nil x)
  cases hhd : pd.headers with
  | nil =>
    have hE : (encodeHeaderLines pd.headers).data = [] := by
      rw [hhd]
      decide
    rw [hE] at hdata
    simp only [List.nil_append] at hdata
    have hcap : markdownCaptures (encode pd).data =
        some (pd.uri.data, [], pd.response_body.data) := by
      rw [hdata]
      unfold markdownCaptures
      apply lazyUntil_here
      refine star_dotlit_uri pd.uri.data u' stem _ _ _ hu' hstem ?_ ?_
      · try simp only []
        refine lazyUntil_nl2 anchorHeaders _ _ _ '#'
          ("## Response headers recorded for playback".data) (by decide) (by decide) ?_
        refine lazyUntil_nl2 fenceLit _ _ _ '`' ("``".data) (by decide) (by decide) ?_
        refine section_capture_nil _ _ _ ?_
        try simp only []
        refine lazyUntil_nl2 anchorBody _ _ _ '#'
          ("## Response body recorded for playback".data) (by decide) (by decide) ?_
        refine lazyUntil_nl2 fenceLit _ _ _ '`' ("``".data) (by decide) (by decide) ?_
        refine section_capture pd.response_body.data ['\n'] ['\n'] _ _ hBcap hnlws ?_
        rfl
      · refine no_late_xml pd.uri.data stem _ hstem ?_
        repeat
          first
          | exact hBd
          | refine nodot_cons _ _ (by decide) ?_
          | refine nodot_app _ _ (by decide) ?_
          | refine nodot_app _ _ hBd ?_
          | exact (by decide)
    have hph : parse_headers (String.mk ([] : List Char)) = pd.headers := by
      rw [hhd]
      show (headerScan ((String.mk ([] : List Char)).data)).map
        (fun kv => (String.mk (rustTrim kv.1), String.mk (rustTrim kv.2))) = []
      rw [show (String.mk ([] : List Char)).data = [] from rfl, headerScan_nil]
      rfl
    rw [decodePlayback_of_captures (encode pd) pd.uri.data [] pd.response_body.data hcap,
      hph]
  | cons kv0 tl0 =>
    have hne : pd.headers ≠ [] := by
      rw [hhd]
      simp
    obtain ⟨HL, hEdata, hHLc, hHLend, ⟨c0h, t0h, hHLhead, hc0h⟩, hscan⟩ :=
      encodeHeaderLines_scan pd.headers hheads hne
    have hHLd : ∀ c ∈ HL, c ≠ '.' := fun c hc => (hHLc c hc).2
    rw [hEdata] at hdata
    simp only [List.append_assoc] at hdata
    have hcap : markdownCaptures (encode pd).data =
        some (pd.uri.data, HL, pd.response_body.data) := by
      rw [hdata]
      unfold markdownCaptures
      apply lazyUntil_here
      refine star_dotlit_uri pd.uri.data u' stem _ _ _ hu' hstem ?_ ?_
      · try simp only []
        refine lazyUntil_nl2 anchorHeaders _ _ _ '#'
          ("## Response headers recorded for playback".data) (by decide) (by decide) ?_
        refine lazyUntil_nl2 fenceLit _ _ _ '`' ("``".data) (by decide) (by decide) ?_
        refine section_capture HL ['\n'] _ _ _ ?_ hnlws ?_
        · right
          refine ⟨⟨c0h, t0h, hHLhead, isKeyChar_not_ws c0h hc0h⟩, ?_, hHLend⟩
          exact fun c hc => (hHLc c hc).1
        · try simp only []
          refine lazyUntil_nl2 anchorBody _ _ _ '#'
            ("## Response body recorded for playback".data) (by decide) (by decide) ?_
          refine lazyUntil_nl2 fenceLit _ _ _ '`' ("``".data) (by decide) (by decide) ?_
          refine section_capture pd.response_body.data ['\n'] ['\n'] _ _ hBcap hnlws ?_
          rfl
      · refine no_late_xml pd.uri.data stem _ hstem ?_
        repeat
          first
          | exact hBd
          | exact hHLd
          | refine nodot_cons _ _ (by decide) ?_
          | refine nodot_app _ _ (by decide) ?_
          | refine nodot_app _ _ hHLd ?_
          | refine nodot_app _ _ hBd ?_
          | exact (by decide)
    have hph : parse_headers (String.mk HL) = pd.headers := by
      show (headerScan ((String.mk HL).data)).map
        (fun kv => (String.mk (rustTrim kv.1), String.mk (rustTrim kv.2))) = pd.headers
      rw [show (String.mk HL).data = HL from rfl, hscan, List.map_map]
      refine list_map_fix _ pd.headers ?_
      intro kv hkv
      obtain ⟨hKne, hKc, hVne, hVc, hVd1, hVd2⟩ := hheads kv hkv
      have hKws : ∀ c ∈ kv.1.data, isWs c = false :=
        fun c hc => isKeyChar_not_ws c (hKc c hc)
      have h1 : rustTrim kv.1.data = kv.1.data :=
        rustTrim_fix _ (dropWhile_all_false _ _ hKws)
          (dropWhile_all_false _ _ (fun c hc => hKws c (List.mem_reverse.mp hc)))
      have h2 : rustTrim kv.2.data = kv.2.data := rustTrim_fix _ hVd1 hVd2
      show (String.mk (rustTrim kv.1.data), String.mk (rustTrim kv.2.data)) = kv
      rw [h1, h2]
    rw [decodePlayback_of_captures (encode pd) pd.uri.data HL pd.response_body.data hcap,
      hph]

/-- Witness for the amended C6 theorem at a concrete well-formed record. -/
theorem C6_corrected_roundtrip_witness :
    decodePlayback (encode { uri := "/a/gbr.xml"
                             headers := [("Content-Type", "text/xml")]
                             response_body := "<root/>" }) =
      .ok { uri := "/a/gbr.xml"
            headers := [("Content-Type", "text/xml")]
            response_body := "<root/>" } :=
  C6_corrected_roundtrip
    { uri := "/a/gbr.xml"
      headers := [("Content-Type", "text/xml")]
      response_body := "<root/>" }
    ⟨"a/gbr.xml".data, by decide⟩ ⟨"/a/gbr".data, by decide⟩
    (by decide) (by decide) (by decide) (by decide)
